import Mathlib

/-!
Verification of the CalorieCurve backend's response-normalization pipeline
(`src/index.js`): JSON extraction from noisy model output, quantity parsing,
portion parsing, nutrient-record normalization and proportional scaling.

Strings are modelled as `List Char`. JavaScript numbers are modelled exactly
(rationals plus NaN/Infinity markers), with `toFixed(2)` as deterministic
round-half-away-from-zero, as the specification permits. JSON numbers are
kept as mantissa/decimal-exponent pairs, so parsed values compare exactly.
-/

namespace CalorieCurve

/-- The backtick character, used by the code-fence stripper. -/
def tick : Char := Char.ofNat 96

/-- JSON whitespace, as accepted by `JSON.parse` between tokens. -/
def isJWs (c : Char) : Bool := (c == ' ') || (c == '\t') || (c == '\n') || (c == '\r')

/-- JavaScript `StrWhiteSpace` characters, as removed by `String.prototype.trim`
and matched by the regex class `\s` (ASCII part plus NBSP, BOM, LS, PS). -/
def isJsSp (c : Char) : Bool :=
  (c == ' ') || (c == '\t') || (c == '\n') || (c == '\r') ||
  (c.toNat == 11) || (c.toNat == 12) || (c.toNat == 160) ||
  (c.toNat == 65279) || (c.toNat == 8232) || (c.toNat == 8233)

/-- ASCII decimal digit test (`\d` and JSON DIGIT). -/
def isDig (c : Char) : Bool := ('0' ≤ c) && (c ≤ '9')

/-- ASCII letter test, the `[a-zA-Z]` class of the fence regex. -/
def isAl (c : Char) : Bool := (('a' ≤ c) && (c ≤ 'z')) || (('A' ≤ c) && (c ≤ 'Z'))

/-- `String.prototype.trim`: drop JS whitespace from both ends. -/
def jsTrim (l : List Char) : List Char :=
  ((l.dropWhile isJsSp).reverse.dropWhile isJsSp).reverse

/-- Skip JSON inter-token whitespace. -/
def skipWs (l : List Char) : List Char := l.dropWhile isJWs

/-- Decimal digit characters to the natural number they denote. -/
def digitsToNat (ds : List Char) : Nat :=
  ds.foldl (fun a c => a * 10 + (c.toNat - 48)) 0

/-- A parsed JSON value. Numbers are kept exact, as `m * 10 ^ e`. -/
inductive Json where
  | null
  | bool (b : Bool)
  | num (m : Int) (e : Int)
  | str (s : List Char)
  | arr (elems : List Json)
  | obj (members : List (List Char × Json))
deriving Repr

/-- Value of a hexadecimal digit, if the character is one. -/
def hexVal (c : Char) : Option Nat :=
  if ('0' ≤ c) && (c ≤ '9') then some (c.toNat - 48)
  else if ('a' ≤ c) && (c ≤ 'f') then some (c.toNat - 87)
  else if ('A' ≤ c) && (c ≤ 'F') then some (c.toNat - 55)
  else none

/-- Single-character JSON string escapes. -/
def escChar : Char → Option Char
  | '"' => some '"'
  | '\\' => some '\\'
  | '/' => some '/'
  | 'b' => some (Char.ofNat 8)
  | 'f' => some (Char.ofNat 12)
  | 'n' => some '\n'
  | 'r' => some '\r'
  | 't' => some '\t'
  | _ => none

mutual
/-- Parse the body of a JSON string, after the opening quote: decoded
characters plus the remaining input. Control characters are rejected,
exactly as `JSON.parse` does. -/
def parseStrA : List Char → Option (List Char × List Char)
  | [] => none
  | c :: rest =>
    if c == '"' then some ([], rest)
    else if c == '\\' then parseEsc rest
    else if c.toNat < 32 then none
    else (parseStrA rest).map (fun p => (c :: p.1, p.2))
/-- Parse a JSON string escape, after the backslash. -/
def parseEsc : List Char → Option (List Char × List Char)
  | [] => none
  | c :: rest =>
    if c == 'u' then parseHex4 rest
    else
      match escChar c with
      | some ch => (parseStrA rest).map (fun p => (ch :: p.1, p.2))
      | none => none
/-- Parse the four hexadecimal digits of a `\u` escape. -/
def parseHex4 : List Char → Option (List Char × List Char)
  | a :: b :: d :: e :: r2 =>
    (match hexVal a, hexVal b, hexVal d, hexVal e with
     | some va, some vb, some vc, some vd =>
       (parseStrA r2).map (fun p => (Char.ofNat (((va * 16 + vb) * 16 + vc) * 16 + vd) :: p.1, p.2))
     | _, _, _, _ => none)
  | _ => none
end

/-- Match an exact literal tail (used for `true`, `false`, `null`). -/
def expectL : List Char → List Char → Option (List Char)
  | [], s => some s
  | p :: ps, c :: s => if p == c then expectL ps s else none
  | _ :: _, [] => none

/-- Build the exact numeric value of a JSON number literal. -/
def mkNum (neg : Bool) (ds fs : List Char) (ex : Int) : Json :=
  Json.num ((if neg then -1 else 1) * (digitsToNat (ds ++ fs) : Int)) (ex - fs.length)

/-- Digits of a JSON exponent (after the optional sign), with the value. -/
def expTailDigits (neg : Bool) (ds fs : List Char) (sg : Int) (r1 : List Char) :
    Option (Json × List Char) :=
  if r1.takeWhile isDig = [] then none
  else some (mkNum neg ds fs (sg * (digitsToNat (r1.takeWhile isDig) : Int)), r1.dropWhile isDig)

/-- Exponent part of a JSON number (after `e`/`E`). -/
def parseExpTail (neg : Bool) (ds fs : List Char) (r : List Char) : Option (Json × List Char) :=
  if r.head? = some '+' then expTailDigits neg ds fs 1 r.tail
  else if r.head? = some '-' then expTailDigits neg ds fs (-1) r.tail
  else expTailDigits neg ds fs 1 r

/-- Optional exponent of a JSON number. -/
def parseExpPart (neg : Bool) (ds fs : List Char) (s : List Char) : Option (Json × List Char) :=
  if s.head? = some 'e' ∨ s.head? = some 'E' then parseExpTail neg ds fs s.tail
  else some (mkNum neg ds fs 0, s)

/-- Unsigned body of a JSON number (JSON forbids leading zeros). -/
def parseNumCore (s : List Char) (neg : Bool) : Option (Json × List Char) :=
  let ds := s.takeWhile isDig
  let s2 := s.dropWhile isDig
  if ds = [] then none
  else if 2 ≤ ds.length ∧ ds.head? = some '0' then none
  else if s2.head? = some '.' then
    (let fs := s2.tail.takeWhile isDig
     if fs = [] then none else parseExpPart neg ds fs (s2.tail.dropWhile isDig))
  else parseExpPart neg ds [] s2

/-- A JSON number literal at the head of the input. -/
def parseNum : List Char → Option (Json × List Char)
  | [] => none
  | c :: s => if c == '-' then parseNumCore s true else parseNumCore (c :: s) false

mutual
/-- One JSON value, by recursion on fuel, mirroring `JSON.parse`. -/
def parseVal : Nat → List Char → Option (Json × List Char)
  | 0, _ => none
  | fuel + 1, s =>
    if (skipWs s).head? = some '{' then
      (if (skipWs (skipWs s).tail).head? = some '}' then
         some (Json.obj [], (skipWs (skipWs s).tail).tail)
       else
         match parseMembers fuel (skipWs s).tail with
         | some (ms, r2) => some (Json.obj ms, r2)
         | none => none)
    else if (skipWs s).head? = some '[' then
      (if (skipWs (skipWs s).tail).head? = some ']' then
         some (Json.arr [], (skipWs (skipWs s).tail).tail)
       else
         match parseElems fuel (skipWs s).tail with
         | some (es, r2) => some (Json.arr es, r2)
         | none => none)
    else if (skipWs s).head? = some '"' then
      (match parseStrA (skipWs s).tail with
       | some (cs, r2) => some (Json.str cs, r2)
       | none => none)
    else if (skipWs s).head? = some 't' then
      (match expectL [ 'r', 'u', 'e'] (skipWs s).tail with
       | some r2 => some (Json.bool true, r2)
       | none => none)
    else if (skipWs s).head? = some 'f' then
      (match expectL [ 'a', 'l', 's', 'e'] (skipWs s).tail with
       | some r2 => some (Json.bool false, r2)
       | none => none)
    else if (skipWs s).head? = some 'n' then
      (match expectL [ 'u', 'l', 'l'] (skipWs s).tail with
       | some r2 => some (Json.null, r2)
       | none => none)
    else
      match (skipWs s).head? with
      | some c => if (c == '-') || isDig c then parseNum (skipWs s) else none
      | none => none
/-- One-or-more comma-separated array elements, ending at `]`. -/
def parseElems : Nat → List Char → Option (List Json × List Char)
  | 0, _ => none
  | fuel + 1, s =>
    match parseVal fuel s with
    | some (v, r1) =>
      if (skipWs r1).head? = some ',' then
        (match parseElems fuel (skipWs r1).tail with
         | some (vs, r3) => some (v :: vs, r3)
         | none => none)
      else if (skipWs r1).head? = some ']' then some ([v], (skipWs r1).tail)
      else none
    | none => none
/-- One-or-more comma-separated object members, ending at `}`. -/
def parseMembers : Nat → List Char → Option (List (List Char × Json) × List Char)
  | 0, _ => none
  | fuel + 1, s =>
    if (skipWs s).head? = some '"' then
      (match parseStrA (skipWs s).tail with
       | some (k, r1) =>
         if (skipWs r1).head? = some ':' then
           (match parseVal fuel (skipWs r1).tail with
            | some (v, r3) =>
              if (skipWs r3).head? = some ',' then
                (match parseMembers fuel (skipWs r3).tail with
                 | some (ms, r5) => some ((k, v) :: ms, r5)
                 | none => none)
              else if (skipWs r3).head? = some '}' then some ([(k, v)], (skipWs r3).tail)
              else none
            | none => none)
         else none
       | none => none)
    else none
end

/-- Model of `JSON.parse`: a complete document, allowing trailing whitespace. -/
def jsonParse (s : List Char) : Option Json :=
  match parseVal (2 * s.length + 2) s with
  | some (v, r) => if (skipWs r).isEmpty then some v else none
  | none => none

/-- A document that parses with nothing at all after the value (no trailing
whitespace); used to state exact-literal hypotheses. -/
def jsonParseExact (s : List Char) : Option Json :=
  match parseVal (2 * s.length + 2) s with
  | some (v, []) => some v
  | _ => none

/-- First global replace of `stripCodeFences`: delete every occurrence of
three backticks followed by an optional language tag (`[a-zA-Z]*`) and an
optional newline, scanning left to right as a JavaScript global regex does.
The Boolean state is true just after a fence opener, while the greedy
language tag (and one optional newline) is being consumed. -/
def strip1 : Bool → List Char → List Char
  | _, [] => []
  | st, c :: c2 :: c3 :: rest3 =>
    if c = tick ∧ c2 = tick ∧ c3 = tick then strip1 true rest3
    else if st then
      (if isAl c then strip1 true (c2 :: c3 :: rest3)
       else if c = '\n' then strip1 false (c2 :: c3 :: rest3)
       else c :: strip1 false (c2 :: c3 :: rest3))
    else c :: strip1 false (c2 :: c3 :: rest3)
  | st, c :: rest =>
    if st then
      (if isAl c then strip1 true rest
       else if c = '\n' then strip1 false rest
       else c :: strip1 false rest)
    else c :: strip1 false rest

/-- Second global replace of `stripCodeFences`: delete every remaining
occurrence of three consecutive backticks. -/
def strip2 : List Char → List Char
  | [] => []
  | c :: c2 :: c3 :: rest3 =>
    if c = tick ∧ c2 = tick ∧ c3 = tick then strip2 rest3
    else c :: strip2 (c2 :: c3 :: rest3)
  | c :: rest => c :: strip2 rest

/-- `stripCodeFences(text)`: empty text maps to the empty string; otherwise
remove fence markers (with tags) and any stray triple backticks, then trim. -/
def stripCodeFences (t : List Char) : List Char :=
  if t = [] then [] else jsTrim (strip2 (strip1 false t))

/-- Index of the first occurrence of a character, if any. -/
def idxOf : List Char → Char → Option Nat
  | [], _ => none
  | c :: rest, d => if c = d then some 0 else (idxOf rest d).map (· + 1)

/-- Index of the last occurrence of a character, if any
(JavaScript `lastIndexOf`). -/
def lastIdxOf (l : List Char) (d : Char) : Option Nat :=
  (idxOf l.reverse d).map (fun i => l.length - 1 - i)

/-- The bracket-slicing fallback of `safeParseJsonArrayFromText`, applied to
the already-cleaned text: direct parse first, then the slice from the first
`[` to the last `]` inclusive. -/
def arrayFromCleaned (cleaned : List Char) : Option (List Json) :=
  match jsonParse cleaned with
  | some (Json.arr l) => some l
  | _ =>
    match idxOf cleaned '[', lastIdxOf cleaned ']' with
    | some s, some e =>
      if s < e then
        (match jsonParse ((cleaned.drop s).take (e + 1 - s)) with
         | some (Json.arr l) => some l
         | _ => none)
      else none
    | _, _ => none

/-- `safeParseJsonArrayFromText`: strip fences, then recover a JSON array. -/
def safeParseJsonArrayFromText (t : List Char) : Option (List Json) :=
  arrayFromCleaned (stripCodeFences t)

/-- True for values with JavaScript `typeof === 'object'` that are truthy:
arrays and objects (parsed `null` is falsy and rejected by the guard). -/
def isObjLike : Json → Bool
  | Json.arr _ => true
  | Json.obj _ => true
  | _ => false

/-- The brace-slicing fallback of `safeParseJsonObjectFromText` on cleaned
text. Note the guard is `parsed && typeof parsed === 'object'`, which a
parsed JSON array also satisfies. -/
def objectFromCleaned (cleaned : List Char) : Option Json :=
  match jsonParse cleaned with
  | some v =>
    if isObjLike v then some v
    else
      (match idxOf cleaned '{', lastIdxOf cleaned '}' with
       | some s, some e =>
         if s < e then
           (match jsonParse ((cleaned.drop s).take (e + 1 - s)) with
            | some w => if isObjLike w then some w else none
            | none => none)
         else none
       | _, _ => none)
  | none =>
    (match idxOf cleaned '{', lastIdxOf cleaned '}' with
     | some s, some e =>
       if s < e then
         (match jsonParse ((cleaned.drop s).take (e + 1 - s)) with
          | some w => if isObjLike w then some w else none
          | none => none)
       else none
     | _, _ => none)

/-- `safeParseJsonObjectFromText`: strip fences, then recover a JSON
object-typed value. -/
def safeParseJsonObjectFromText (t : List Char) : Option Json :=
  objectFromCleaned (stripCodeFences t)

/-- The unit alternatives of the quantity regex
`(g|gram|grams|kg|ml|mL|milliliter|milliliters|l|L)`, in source order
(a JavaScript alternation takes the first alternative that matches). -/
def unitAlts : List (List Char) :=
  [[ 'g'], [ 'g', 'r', 'a', 'm'], [ 'g', 'r', 'a', 'm', 's'], [ 'k', 'g'],
   [ 'm', 'l'], [ 'm', 'L'],
   [ 'm', 'i', 'l', 'l', 'i', 'l', 'i', 't', 'e', 'r'],
   [ 'm', 'i', 'l', 'l', 'i', 'l', 'i', 't', 'e', 'r', 's'],
   [ 'l'], [ 'L']]

/-- Case-insensitive literal prefix match, returning the matched input
characters (the regex is `/i`-flagged, and `match[2]` is the raw text). -/
def ciPre : List Char → List Char → Option (List Char × List Char)
  | [], s => some ([], s)
  | p :: ps, c :: s =>
    if p.toLower = c.toLower then (ciPre ps s).map (fun r => (c :: r.1, r.2)) else none
  | _ :: _, [] => none

/-- First unit alternative matching at the current position. -/
def firstUnit : List (List Char) → List Char → Option (List Char × List Char)
  | [], _ => none
  | a :: as, s =>
    match ciPre a s with
    | some m => some m
    | none => firstUnit as s

/-- Match `\d+(?:\.\d+)?` at the current position: the matched lexeme and the
rest. The optional fraction is taken greedily when a digit follows the dot. -/
def matchNumAt (s : List Char) : Option (List Char × List Char) :=
  let ds := s.takeWhile isDig
  if ds = [] then none
  else
    match s.dropWhile isDig with
    | '.' :: s3 =>
      let fs := s3.takeWhile isDig
      if fs = [] then some (ds, '.' :: s3)
      else some (ds ++ '.' :: fs, s3.dropWhile isDig)
    | s2 => some (ds, s2)

/-- Attempt the whole quantity pattern at the current position:
number, optional whitespace, then a unit alternative. Returns the number
lexeme, the raw matched unit text, and the input after the match. -/
def tryQuantAt (s : List Char) : Option (List Char × List Char × List Char) :=
  match matchNumAt s with
  | some (nl, r1) =>
    (match firstUnit unitAlts (r1.dropWhile isJsSp) with
     | some (u, rest) => some (nl, u, rest)
     | none => none)
  | none => none

/-- Leftmost match of the quantity regex: scan positions left to right, as a
JavaScript regex engine does. Returns the text before the match, the number
lexeme, the raw unit text, and the text after the match. -/
def scanQuant : List Char → Option (List Char × List Char × List Char × List Char)
  | [] => none
  | c :: s =>
    match tryQuantAt (c :: s) with
    | some (nl, u, rest) => some ([], nl, u, rest)
    | none =>
      match scanQuant s with
      | some (pre, nl, u, rest) => some (c :: pre, nl, u, rest)
      | none => none

/-- `parseFloat` on a `\d+(?:\.\d+)?` lexeme, as an exact rational. -/
def ratOfLex (l : List Char) : ℚ :=
  let ds := l.takeWhile (fun c => !(c == '.'))
  let fs := (l.dropWhile (fun c => !(c == '.'))).drop 1
  (digitsToNat (ds ++ fs) : ℚ) / (10 : ℚ) ^ fs.length

/-- The unit-to-grams conversion chain of `parseAmountUnit` (the unit has
already been lowercased, exactly as in the source, so the `mL` and `L`
comparisons there are unreachable but kept). -/
def gramsOfUnit (u : List Char) (a : ℚ) : Option ℚ :=
  if u = [ 'g'] ∨ u = [ 'g', 'r', 'a', 'm'] ∨ u = [ 'g', 'r', 'a', 'm', 's'] then some a
  else if u = [ 'k', 'g'] then some (a * 1000)
  else if u = [ 'm', 'l'] ∨ u = [ 'm', 'L'] ∨
          u = [ 'm', 'i', 'l', 'l', 'i', 'l', 'i', 't', 'e', 'r'] ∨
          u = [ 'm', 'i', 'l', 'l', 'i', 'l', 'i', 't', 'e', 'r', 's'] then some a
  else if u = [ 'l'] ∨ u = [ 'L'] then some (a * 1000)
  else none

/-- The record returned by `parseAmountUnit`. -/
structure ParsedQuantity where
  grams : Option ℚ
  unit : Option (List Char)
  amount : Option ℚ
  baseText : List Char
deriving Repr, DecidableEq

/-- `parseAmountUnit(text)`: find the first `<number><ws?><unit>` span,
convert to grams, and remove exactly the matched span (then trim). With no
match, every field is null and `baseText` is the input itself. -/
def parseAmountUnit (t : List Char) : ParsedQuantity :=
  if t = [] then ⟨none, none, none, t⟩
  else
    match scanQuant t with
    | none => ⟨none, none, none, t⟩
    | some (pre, nl, u, rest) =>
      let a := ratOfLex nl
      let ul := u.map Char.toLower
      ⟨gramsOfUnit ul a, some ul, some a, jsTrim (pre ++ rest)⟩

/-- Attempt the portion pattern `\((\d+(?:\.\d+)?)\s*(g|ml)\)` (with `/i`)
at the current position; both units return the value unconverted. -/
def tryPortionAt : List Char → Option ℚ
  | '(' :: s =>
    (match matchNumAt s with
     | some (nl, r1) =>
       (match r1.dropWhile isJsSp with
        | c :: r3 =>
          if c.toLower = 'g' then
            (match r3 with
             | ')' :: _ => some (ratOfLex nl)
             | _ => none)
          else if c.toLower = 'm' then
            (match r3 with
             | c2 :: ')' :: _ => if c2.toLower = 'l' then some (ratOfLex nl) else none
             | _ => none)
          else none
        | [] => none)
     | none => none)
  | _ => none

/-- Leftmost match of the portion regex over the whole string. -/
def scanPortion : List Char → Option ℚ
  | [] => none
  | c :: s =>
    match tryPortionAt (c :: s) with
    | some v => some v
    | none => scanPortion s

/-- `extractGramsFromPortion(portion)`: the parenthesized quantity, or null. -/
def extractGramsFromPortion (p : List Char) : Option ℚ :=
  if p = [] then none else scanPortion p

/-- A JavaScript number: NaN, a signed infinity, or an exact finite value.
Finite arithmetic is modelled exactly over `ℚ` (deterministic, as the
specification allows for the rounding step). -/
inductive JNum where
  | nan
  | inf (pos : Bool)
  | fin (q : ℚ)
deriving Repr, DecidableEq

/-- JavaScript multiplication on numbers. -/
def jmul : JNum → JNum → JNum
  | JNum.nan, _ => JNum.nan
  | _, JNum.nan => JNum.nan
  | JNum.inf s, JNum.inf t => JNum.inf (s == t)
  | JNum.inf s, JNum.fin q =>
    if q = 0 then JNum.nan else JNum.inf (if 0 < q then s else !s)
  | JNum.fin q, JNum.inf s =>
    if q = 0 then JNum.nan else JNum.inf (if 0 < q then s else !s)
  | JNum.fin a, JNum.fin b => JNum.fin (a * b)

/-- Round to two decimal places, half away from zero (the deterministic
reading of `toFixed(2)` sanctioned by the specification). -/
def round2 (q : ℚ) : ℚ :=
  (if 0 ≤ q then ((⌊q * 100 + 1 / 2⌋ : ℤ) : ℚ) else -((⌊-(q * 100) + 1 / 2⌋ : ℤ) : ℚ)) / 100

/-- `+(x).toFixed(2)`: finite values round to two decimals; `NaN` and the
infinities survive the string round trip unchanged. -/
def toFixed2 : JNum → JNum
  | JNum.nan => JNum.nan
  | JNum.inf s => JNum.inf s
  | JNum.fin q => JNum.fin (round2 q)

/-- Digit characters of a natural number, most significant first
(fuelled, so it evaluates in the kernel). -/
def natDigitsF : Nat → Nat → List Char → List Char
  | 0, _, acc => acc
  | fuel + 1, n, acc =>
    if n < 10 then Char.ofNat (48 + n) :: acc
    else natDigitsF fuel (n / 10) (Char.ofNat (48 + n % 10) :: acc)

/-- Decimal digits of a natural number. -/
def natDigits (n : Nat) : List Char := natDigitsF (n + 1) n []

/-- JavaScript number-to-string for the finite decimal values this pipeline
produces: minimal decimal expansion with a sign (exponential notation for
extreme magnitudes is outside the modelled range). -/
def ratToStr (q : ℚ) : List Char :=
  let sgn : List Char := if q < 0 then [ '-'] else []
  let a : ℚ := |q|
  if a.den = 1 then sgn ++ natDigits a.num.toNat
  else
    match (List.range 40).find? (fun k => (a * (10 : ℚ) ^ k).den == 1) with
    | some k =>
      let ds := natDigits (a * (10 : ℚ) ^ k).num.toNat
      let ds' := if ds.length ≤ k then List.replicate (k + 1 - ds.length) '0' ++ ds else ds
      (sgn ++ ds'.take (ds'.length - k)) ++ '.' :: ds'.drop (ds'.length - k)
    | none => sgn ++ natDigits a.num.toNat ++ '/' :: natDigits a.den

mutual
/-- JavaScript `String()` coercion on parsed JSON values. -/
def jsToStr : Json → List Char
  | Json.null => [ 'n', 'u', 'l', 'l']
  | Json.bool true => [ 't', 'r', 'u', 'e']
  | Json.bool false => [ 'f', 'a', 'l', 's', 'e']
  | Json.num m e => ratToStr ((m : ℚ) * (10 : ℚ) ^ e)
  | Json.str s => s
  | Json.arr l => jsJoin l
  | Json.obj _ => [ '[', 'o', 'b', 'j', 'e', 'c', 't', ' ', 'O', 'b', 'j', 'e', 'c', 't', ']']
/-- `Array.prototype.toString`: elements joined by commas, with `null`
entries contributing the empty string. -/
def jsJoin : List Json → List Char
  | [] => []
  | [Json.null] => []
  | [j] => jsToStr j
  | Json.null :: rest => ',' :: jsJoin rest
  | j :: rest => jsToStr j ++ ',' :: jsJoin rest
end

/-- Value of a digit string in a radix, left to right; fails on any
character whose digit value is not below the radix. -/
def radixValAux (b acc : Nat) : List Char → Option Nat
  | [] => some acc
  | c :: rest =>
    match hexVal c with
    | some v => if v < b then radixValAux b (acc * b + v) rest else none
    | none => none

/-- A `0x`/`0o`/`0b` numeric string body, as converted by `Number()`. -/
def radixNum (b : Nat) (ds : List Char) : JNum :=
  if ds = [] then JNum.nan
  else
    match radixValAux b 0 ds with
    | some n => JNum.fin (n : ℚ)
    | none => JNum.nan

/-- Exponent suffix of a JavaScript decimal literal: empty, or
`e`/`E` with an optional sign and at least one digit consuming the rest. -/
def expValOf : List Char → Option Int
  | [] => some 0
  | c :: r =>
    if (c == 'e') || (c == 'E') then
      match r with
      | '+' :: r1 => if r1 ≠ [] ∧ r1.all isDig then some ((digitsToNat r1 : Int)) else none
      | '-' :: r1 => if r1 ≠ [] ∧ r1.all isDig then some (-(digitsToNat r1 : Int)) else none
      | r1 => if r1 ≠ [] ∧ r1.all isDig then some ((digitsToNat r1 : Int)) else none
    else none

/-- An unsigned JavaScript decimal literal (`5`, `5.`, `.5`, `5.25e-3` …)
that must consume the whole string; its exact value. -/
def decValue (r : List Char) : Option ℚ :=
  let ds := r.takeWhile isDig
  match r.dropWhile isDig with
  | [] => if ds = [] then none else some ((digitsToNat ds : ℚ))
  | '.' :: r3 =>
    let fs := r3.takeWhile isDig
    if ds = [] ∧ fs = [] then none
    else
      (expValOf (r3.dropWhile isDig)).map
        (fun e => (digitsToNat (ds ++ fs) : ℚ) / (10 : ℚ) ^ fs.length * (10 : ℚ) ^ e)
  | r2 =>
    if ds = [] then none
    else (expValOf r2).map (fun e => (digitsToNat ds : ℚ) * (10 : ℚ) ^ e)

/-- A signed decimal literal or `Infinity`, as converted by `Number()`. -/
def decSigned (t : List Char) (neg : Bool) : JNum :=
  if t = [ 'I', 'n', 'f', 'i', 'n', 'i', 't', 'y'] then JNum.inf (!neg)
  else
    match decValue t with
    | some q => JNum.fin (if neg then -q else q)
    | none => JNum.nan

/-- JavaScript `Number()` on a string: trim, empty means zero, then a hex,
octal or binary literal (unsigned only) or a signed decimal literal or
`Infinity`; anything else is NaN. -/
def strToNum (s : List Char) : JNum :=
  match jsTrim s with
  | [] => JNum.fin 0
  | '0' :: x :: rest =>
    if (x == 'x') || (x == 'X') then radixNum 16 rest
    else if (x == 'o') || (x == 'O') then radixNum 8 rest
    else if (x == 'b') || (x == 'B') then radixNum 2 rest
    else decSigned ('0' :: x :: rest) false
  | '+' :: r => decSigned r false
  | '-' :: r => decSigned r true
  | t => decSigned t false

/-- JavaScript `Number()` coercion on parsed JSON values (arrays and plain
objects go through their string form, per `ToPrimitive`). -/
def jsToNumber : Json → JNum
  | Json.null => JNum.fin 0
  | Json.bool b => JNum.fin (if b then 1 else 0)
  | Json.num m e => JNum.fin ((m : ℚ) * (10 : ℚ) ^ e)
  | Json.str s => strToNum s
  | Json.arr l => strToNum (jsToStr (Json.arr l))
  | Json.obj ms => strToNum (jsToStr (Json.obj ms))

/-- JavaScript truthiness of a parsed JSON value. -/
def truthy : Json → Bool
  | Json.null => false
  | Json.bool b => b
  | Json.num m _ => !(m == 0)
  | Json.str s => !s.isEmpty
  | Json.arr _ => true
  | Json.obj _ => true

/-- The canonical nutrient record: a name, a portion label, and the 17
numeric fields of the schema. -/
structure NutrientRec where
  name : List Char
  portion : List Char
  calories : JNum
  protein : JNum
  carbs : JNum
  fat : JNum
  fiber : JNum
  sugar : JNum
  sodium : JNum
  iron : JNum
  zinc : JNum
  calcium : JNum
  vitaminB12 : JNum
  vitaminD : JNum
  vitaminA : JNum
  omega3 : JNum
  vitaminC : JNum
  magnesium : JNum
  potassium : JNum
deriving Repr, DecidableEq

/-- Property lookup on a parsed JSON value: own properties exist only on
objects, and with duplicate keys `JSON.parse` keeps the last one. -/
def lookupLastKey : List (List Char × Json) → List Char → Option Json
  | [], _ => none
  | (k, v) :: rest, key =>
    match lookupLastKey rest key with
    | some r => some r
    | none => if k = key then some v else none

/-- `item.key` on a parsed JSON value. -/
def jget (j : Json) (key : List Char) : Option Json :=
  match j with
  | Json.obj ms => lookupLastKey ms key
  | _ => none

/-- `String(x || fallbackString)` where the fallback is already a string. -/
def jstr (x : Option Json) (fallback : List Char) : List Char :=
  match x with
  | some v => if truthy v then jsToStr v else fallback
  | none => fallback

/-- `Number(x || 0)`: falsy or absent values give `0`; any truthy value is
numerically coerced (which can itself be NaN). -/
def jnum0 (x : Option Json) : JNum :=
  match x with
  | some v => if truthy v then jsToNumber v else JNum.fin 0
  | none => JNum.fin 0

/-- The per-item normalization map of the `/api/foods` route. -/
def normalizeItem (query : List Char) (item : Json) : NutrientRec :=
  { name := jstr (jget item ( "name".data)) query
    portion := jstr (jget item ( "portion".data)) ( "1 serving (100g)".data)
    calories := jnum0 (jget item ( "calories".data))
    protein := jnum0 (jget item ( "protein".data))
    carbs := jnum0 (jget item ( "carbs".data))
    fat := jnum0 (jget item ( "fat".data))
    fiber := jnum0 (jget item ( "fiber".data))
    sugar := jnum0 (jget item ( "sugar".data))
    sodium := jnum0 (jget item ( "sodium".data))
    iron := jnum0 (jget item ( "iron".data))
    zinc := jnum0 (jget item ( "zinc".data))
    calcium := jnum0 (jget item ( "calcium".data))
    vitaminB12 := jnum0 (jget item ( "vitaminB12".data))
    vitaminD := jnum0 (jget item ( "vitaminD".data))
    vitaminA := jnum0 (jget item ( "vitaminA".data))
    omega3 := jnum0 (jget item ( "omega3".data))
    vitaminC := jnum0 (jget item ( "vitaminC".data))
    magnesium := jnum0 (jget item ( "magnesium".data))
    potassium := jnum0 (jget item ( "potassium".data)) }

/-- One field of `scaleNutrients`: numbers other than NaN are scaled and
re-rounded through `toFixed(2)`; NaN fields are left untouched. -/
def scaleField (x sc : JNum) : JNum :=
  match x with
  | JNum.nan => JNum.nan
  | x => toFixed2 (jmul x sc)

/-- `scaleNutrients(item, scale)` over the 17 numeric keys. -/
def scaleNutrients (it : NutrientRec) (sc : JNum) : NutrientRec :=
  { it with
    calories := scaleField it.calories sc
    protein := scaleField it.protein sc
    carbs := scaleField it.carbs sc
    fat := scaleField it.fat sc
    fiber := scaleField it.fiber sc
    sugar := scaleField it.sugar sc
    sodium := scaleField it.sodium sc
    iron := scaleField it.iron sc
    zinc := scaleField it.zinc sc
    calcium := scaleField it.calcium sc
    vitaminB12 := scaleField it.vitaminB12 sc
    vitaminD := scaleField it.vitaminD sc
    vitaminA := scaleField it.vitaminA sc
    omega3 := scaleField it.omega3 sc
    vitaminC := scaleField it.vitaminC sc
    magnesium := scaleField it.magnesium sc
    potassium := scaleField it.potassium sc }

/-- The rewritten portion label `custom serving (<amount><label>)`. -/
def customPortion (amount : Option ℚ) (lbl : List Char) : List Char :=
  ( "custom serving (".data) ++
    (match amount with
     | some a => ratToStr a
     | none => [ 'n', 'u', 'l', 'l']) ++ lbl ++ [ ')']

/-- `unit && (unit.toLowerCase().includes('l') ||
unit.toLowerCase().includes('ml')) ? 'ml' : 'g'`. -/
def hasML : List Char → Bool
  | 'm' :: 'l' :: _ => true
  | _ :: rest => hasML rest
  | [] => false

/-- The output unit label chosen by the scaling block. -/
def labelUnit : Option (List Char) → List Char
  | some u =>
    if (!u.isEmpty) && (((u.map Char.toLower).contains 'l') || hasML (u.map Char.toLower))
    then [ 'm', 'l'] else [ 'g']
  | none => [ 'g']

/-- One record of the scaling block: reference from the portion if positive,
else 100; scale all numeric fields; rewrite the portion label. -/
def scaleItem (pq : ParsedQuantity) (d : ℚ) (it : NutrientRec) : NutrientRec :=
  let sc : ℚ :=
    match extractGramsFromPortion it.portion with
    | some v => if v ≠ 0 ∧ 0 < v then d / v else d / 100
    | none => d / 100
  { scaleNutrients it (JNum.fin sc) with
    portion := customPortion pq.amount (labelUnit pq.unit) }

/-- The `/api/foods` scaling block: applied only when a truthy quantity was
parsed and the normalized list is non-empty. -/
def scaleResults (pq : ParsedQuantity) (items : List NutrientRec) : List NutrientRec :=
  match pq.grams with
  | some d => if d ≠ 0 ∧ items ≠ [] then items.map (scaleItem pq d) else items
  | none => items

/-- The `/api/foods` post-extraction pipeline: keep object-typed entries,
normalize each, then scale when a quantity was given. -/
def foodsPipeline (query : List Char) (data : List Json) : List NutrientRec :=
  scaleResults (parseAmountUnit query) ((data.filter isObjLike).map (normalizeItem query))

/-- The `/api/suggestions` post-extraction step: require an array-valued
`suggestions` field, coerce entries to strings, drop blank ones, keep the
first six. -/
def suggestionsFromParsed (parsed : Json) : Option (List (List Char)) :=
  match jget parsed ( "suggestions".data) with
  | some (Json.arr l) =>
    some ((((l.map jsToStr).filter (fun s => (!s.isEmpty) && (!(jsTrim s).isEmpty))).take 6))
  | _ => none

/-! ### Generic facts about spans and appends -/

theorem dropWhile_append_cons {p : Char → Bool} {l r t : List Char} {c : Char}
    (h : l.dropWhile p = c :: t) : (l ++ r).dropWhile p = c :: (t ++ r) := by
  rw [List.dropWhile_append, h]
  simp

theorem dropWhile_append_nil {p : Char → Bool} {l r : List Char}
    (h : l.dropWhile p = []) : (l ++ r).dropWhile p = r.dropWhile p := by
  rw [List.dropWhile_append, h]
  simp

theorem takeWhile_append_of_drop_cons {p : Char → Bool} {l r t : List Char} {c : Char}
    (h : l.dropWhile p = c :: t) : (l ++ r).takeWhile p = l.takeWhile p := by
  rw [List.takeWhile_append]
  have hlen : (l.takeWhile p).length + (l.dropWhile p).length = l.length := by
    rw [← List.length_append, List.takeWhile_append_dropWhile]
  rw [h] at hlen
  have : ¬ (l.takeWhile p).length = l.length := by simp at hlen ⊢; omega
  simp [this]

/-! ### Parser fuel monotonicity -/

mutual
theorem parseVal_succ : ∀ (fuel : Nat) (s : List Char) (x : Json × List Char),
    parseVal fuel s = some x → parseVal (fuel + 1) s = some x
  | 0, _, _, h => by simp [parseVal] at h
  | fuel + 1, s, x, h => by
    rw [parseVal] at h ⊢
    split at h
    · rename_i c1
      rw [if_pos c1]
      split at h
      · rename_i c2
        rw [if_pos c2]
        exact h
      · rename_i c2
        rw [if_neg c2]
        split at h
        · rename_i heq
          rw [parseMembers_succ fuel _ _ heq]
          exact h
        · contradiction
    · rename_i c1
      rw [if_neg c1]
      split at h
      · rename_i c2
        rw [if_pos c2]
        split at h
        · rename_i c3
          rw [if_pos c3]
          exact h
        · rename_i c3
          rw [if_neg c3]
          split at h
          · rename_i heq
            rw [parseElems_succ fuel _ _ heq]
            exact h
          · contradiction
      · rename_i c2
        rw [if_neg c2]
        split at h
        · rename_i c3
          rw [if_pos c3]
          split at h
          · rename_i heq
            exact h
          · contradiction
        · rename_i c3
          rw [if_neg c3]
          split at h
          · rename_i c4
            rw [if_pos c4]
            split at h
            · rename_i heq
              exact h
            · contradiction
          · rename_i c4
            rw [if_neg c4]
            split at h
            · rename_i c5
              rw [if_pos c5]
              split at h
              · rename_i heq
                exact h
              · contradiction
            · rename_i c5
              rw [if_neg c5]
              split at h
              · rename_i c6
                rw [if_pos c6]
                split at h
                · rename_i heq
                  exact h
                · contradiction
              · rename_i c6
                rw [if_neg c6]
                split at h
                · rename_i c heq
                  exact h
                · contradiction

theorem parseElems_succ : ∀ (fuel : Nat) (s : List Char) (x : List Json × List Char),
    parseElems fuel s = some x → parseElems (fuel + 1) s = some x
  | 0, _, _, h => by simp [parseElems] at h
  | fuel + 1, s, x, h => by
    rw [parseElems] at h ⊢
    split at h
    · rename_i v r1 heq
      rw [parseVal_succ fuel _ _ heq]
      dsimp only
      split at h
      · rename_i c1
        rw [if_pos c1]
        split at h
        · rename_i heq3
          rw [parseElems_succ fuel _ _ heq3]
          exact h
        · contradiction
      · rename_i c1
        rw [if_neg c1]
        exact h
    · contradiction

theorem parseMembers_succ : ∀ (fuel : Nat) (s : List Char)
    (x : List (List Char × Json) × List Char),
    parseMembers fuel s = some x → parseMembers (fuel + 1) s = some x
  | 0, _, _, h => by simp [parseMembers] at h
  | fuel + 1, s, x, h => by
    rw [parseMembers] at h ⊢
    split at h
    · rename_i c1
      rw [if_pos c1]
      split at h
      · rename_i k r1 heq
        split at h
        · rename_i c2
          rw [if_pos c2]
          split at h
          · rename_i v r3 heq2
            rw [parseVal_succ fuel _ _ heq2]
            dsimp only
            split at h
            · rename_i c3
              rw [if_pos c3]
              split at h
              · rename_i heq3
                rw [parseMembers_succ fuel _ _ heq3]
                exact h
              · contradiction
            · rename_i c3
              rw [if_neg c3]
              exact h
          · contradiction
        · contradiction
      · contradiction
    · contradiction
end

theorem parseVal_mono {fuel fuel' : Nat} (s : List Char) (x : Json × List Char)
    (hle : fuel ≤ fuel') (h : parseVal fuel s = some x) : parseVal fuel' s = some x := by
  induction fuel' with
  | zero =>
    have hz : fuel = 0 := by omega
    exact hz ▸ h
  | succ n ih =>
    rcases Nat.lt_or_ge fuel (n + 1) with hlt | hge
    · exact parseVal_succ n s x (ih (by omega))
    · have hz : fuel = n + 1 := by omega
      exact hz ▸ h

/-! ### Parser extension lemmas: a successful parse is insensitive to extra
input appended after the part it consumed (with the one genuine exception of
a number ending flush at the end of input, excluded by hypothesis). -/

theorem skipWs_append_cons {s t ext : List Char} {c : Char}
    (h : skipWs s = c :: t) : skipWs (s ++ ext) = c :: (t ++ ext) :=
  dropWhile_append_cons h

theorem skipWs_ne_nil {s t : List Char} {c : Char}
    (h : skipWs s = c :: t) : s ≠ [] := by
  intro hs
  rw [hs] at h
  simp [skipWs] at h

theorem expectL_ext : ∀ (p s r ext : List Char),
    expectL p s = some r → expectL p (s ++ ext) = some (r ++ ext)
  | [], s, r, ext, h => by
    simp [expectL] at h
    subst h
    rfl
  | p :: ps, [], r, ext, h => by simp [expectL] at h
  | p :: ps, c :: s, r, ext, h => by
    rw [expectL] at h
    split at h
    · exact by
        rw [List.cons_append, expectL]
        rename_i hpc
        rw [if_pos hpc]
        exact expectL_ext ps s r ext h
    · contradiction

mutual
theorem parseStrA_ext : ∀ (s cs r ext : List Char),
    parseStrA s = some (cs, r) → parseStrA (s ++ ext) = some (cs, r ++ ext)
  | [], _, _, _, h => by simp [parseStrA] at h
  | c :: rest, cs, r, ext, h => by
    rw [parseStrA] at h
    rw [List.cons_append, parseStrA]
    split at h
    · rename_i hq
      rw [if_pos hq]
      simp only [Option.some.injEq, Prod.mk.injEq] at h
      obtain ⟨rfl, rfl⟩ := h
      rfl
    · rename_i hq
      rw [if_neg hq]
      split at h
      · rename_i hb
        rw [if_pos hb]
        exact parseEsc_ext rest cs r ext h
      · rename_i hb
        rw [if_neg hb]
        split at h
        · contradiction
        · rename_i hc
          rw [if_neg hc]
          rcases Option.map_eq_some'.mp h with ⟨⟨cs', r'⟩, hp, hmk⟩
          simp only [Prod.mk.injEq] at hmk
          obtain ⟨h1, h2⟩ := hmk
          subst h1
          subst h2
          rw [parseStrA_ext rest cs' r' ext hp]
          rfl

theorem parseEsc_ext : ∀ (s cs r ext : List Char),
    parseEsc s = some (cs, r) → parseEsc (s ++ ext) = some (cs, r ++ ext)
  | [], _, _, _, h => by simp [parseEsc] at h
  | c :: rest, cs, r, ext, h => by
    rw [parseEsc] at h
    rw [List.cons_append, parseEsc]
    split at h
    · rename_i hu
      rw [if_pos hu]
      exact parseHex4_ext rest cs r ext h
    · rename_i hu
      rw [if_neg hu]
      split at h
      · rename_i ch hch
        rcases Option.map_eq_some'.mp h with ⟨⟨cs', r'⟩, hp, hmk⟩
        simp only [Prod.mk.injEq] at hmk
        obtain ⟨h1, h2⟩ := hmk
        subst h1
        subst h2
        rw [parseStrA_ext rest cs' r' ext hp]
        rfl
      · contradiction

theorem parseHex4_ext : ∀ (s cs r ext : List Char),
    parseHex4 s = some (cs, r) → parseHex4 (s ++ ext) = some (cs, r ++ ext)
  | [], _, _, _, h => by simp [parseHex4] at h
  | [a], _, _, _, h => by simp [parseHex4] at h
  | [a, b], _, _, _, h => by simp [parseHex4] at h
  | [a, b, d], _, _, _, h => by simp [parseHex4] at h
  | a :: b :: d :: e :: r2, cs, r, ext, h => by
    rw [parseHex4] at h
    simp only [List.cons_append]
    rw [parseHex4]
    split at h
    · rcases Option.map_eq_some'.mp h with ⟨⟨cs', r'⟩, hp, hmk⟩
      simp only [Prod.mk.injEq] at hmk
      obtain ⟨h1, h2⟩ := hmk
      subst h1
      subst h2
      rw [parseStrA_ext r2 cs' r' ext hp]
      rfl
    · contradiction
end

theorem expTailDigits_ext {neg : Bool} {ds fs : List Char} {sg : Int} {r1 r2 ext : List Char}
    {j : Json} (h : expTailDigits neg ds fs sg r1 = some (j, r2)) (hr : r2 ≠ []) :
    expTailDigits neg ds fs sg (r1 ++ ext) = some (j, r2 ++ ext) := by
  rw [expTailDigits] at h
  rw [expTailDigits]
  split at h
  · contradiction
  · rename_i hne
    simp only [Option.some.injEq, Prod.mk.injEq] at h
    obtain ⟨rfl, rfl⟩ := h
    obtain ⟨c, t, hct⟩ : ∃ c t, r1.dropWhile isDig = c :: t := by
      rcases hd : r1.dropWhile isDig with _ | ⟨c, t⟩
      · exact absurd hd hr
      · exact ⟨c, t, rfl⟩
    rw [takeWhile_append_of_drop_cons hct, dropWhile_append_cons hct, hct]
    rw [if_neg hne]
    simp

theorem parseExpTail_ext {neg : Bool} {ds fs : List Char} {r r2 ext : List Char}
    {j : Json} (h : parseExpTail neg ds fs r = some (j, r2)) (hr : r2 ≠ []) :
    parseExpTail neg ds fs (r ++ ext) = some (j, r2 ++ ext) := by
  rcases r with _ | ⟨c, t⟩
  · simp [parseExpTail, expTailDigits] at h
  · simp only [List.cons_append, parseExpTail, List.head?_cons, List.tail_cons] at h ⊢
    split at h
    · rename_i hc
      rw [if_pos hc]
      exact expTailDigits_ext h hr
    · rename_i hc
      rw [if_neg hc]
      split at h
      · rename_i hc2
        rw [if_pos hc2]
        exact expTailDigits_ext h hr
      · rename_i hc2
        rw [if_neg hc2]
        have := @expTailDigits_ext _ _ _ _ _ _ ext _ h hr
        simpa using this

theorem parseExpPart_nil_rest {neg : Bool} {ds fs : List Char} {j : Json} {r2 : List Char}
    (h : parseExpPart neg ds fs [] = some (j, r2)) : r2 = [] := by
  simp [parseExpPart, parseExpTail, expTailDigits] at h
  exact h.2

theorem parseExpPart_ext {neg : Bool} {ds fs : List Char} {s r2 ext : List Char}
    {j : Json} (h : parseExpPart neg ds fs s = some (j, r2)) (hr : r2 ≠ []) :
    parseExpPart neg ds fs (s ++ ext) = some (j, r2 ++ ext) := by
  rcases s with _ | ⟨c, t⟩
  · exact absurd (parseExpPart_nil_rest h) hr
  · simp only [List.cons_append, parseExpPart, List.head?_cons, List.tail_cons] at h ⊢
    split at h
    · rename_i hc
      rw [if_pos hc]
      exact parseExpTail_ext h hr
    · rename_i hc
      rw [if_neg hc]
      simp only [Option.some.injEq, Prod.mk.injEq] at h
      obtain ⟨rfl, rfl⟩ := h
      rfl

theorem parseNumCore_ext {s : List Char} {neg : Bool} {j : Json} {r2 ext : List Char}
    (h : parseNumCore s neg = some (j, r2)) (hr : r2 ≠ []) :
    parseNumCore (s ++ ext) neg = some (j, r2 ++ ext) := by
  simp only [parseNumCore] at h ⊢
  split at h
  · contradiction
  · rename_i hds
    split at h
    · contradiction
    · rename_i hlz
      rcases hs2 : s.dropWhile isDig with _ | ⟨c2, t2⟩
      · rw [hs2] at h
        rw [if_neg (by simp)] at h
        exact absurd (parseExpPart_nil_rest (by simpa using h)) hr
      · have htw := takeWhile_append_of_drop_cons (r := ext) hs2
        have hdw := dropWhile_append_cons (r := ext) hs2
        rw [htw, hdw]
        rw [if_neg hds, if_neg hlz]
        rw [hs2] at h
        simp only [List.head?_cons, List.tail_cons] at h ⊢
        split at h
        · rename_i hdot
          rw [if_pos hdot]
          split at h
          · contradiction
          · rename_i hfs
            rcases hs4 : t2.dropWhile isDig with _ | ⟨c4, t4⟩
            · rw [hs4] at h
              exact absurd (parseExpPart_nil_rest h) hr
            · have htw4 := takeWhile_append_of_drop_cons (r := ext) hs4
              have hdw4 := dropWhile_append_cons (r := ext) hs4
              rw [htw4, hdw4]
              rw [if_neg hfs]
              have harg : (c4 : Char) :: (t4 ++ ext) = t2.dropWhile isDig ++ ext := by
                rw [hs4]
                rfl
              rw [harg]
              exact parseExpPart_ext h hr
        · rename_i hdot
          rw [if_neg hdot]
          have harg : (c2 : Char) :: (t2 ++ ext) = (c2 :: t2) ++ ext := rfl
          rw [harg]
          exact parseExpPart_ext h hr

theorem parseNum_ext {s : List Char} {j : Json} {r2 ext : List Char}
    (h : parseNum s = some (j, r2)) (hr : r2 ≠ []) :
    parseNum (s ++ ext) = some (j, r2 ++ ext) := by
  rcases s with _ | ⟨c, t⟩
  · simp [parseNum] at h
  · rw [parseNum] at h
    rw [List.cons_append, parseNum]
    split at h
    · rename_i hc
      rw [if_pos hc]
      exact parseNumCore_ext h hr
    · rename_i hc
      rw [if_neg hc]
      exact parseNumCore_ext (s := c :: t) h hr

theorem expTailDigits_shape {neg : Bool} {ds fs : List Char} {sg : Int} {r1 r2 : List Char}
    {j : Json} (h : expTailDigits neg ds fs sg r1 = some (j, r2)) :
    ∃ m e, j = Json.num m e := by
  rw [expTailDigits] at h
  split at h
  · contradiction
  · simp only [Option.some.injEq, Prod.mk.injEq] at h
    exact ⟨_, _, by rw [← h.1]; rfl⟩

theorem parseExpTail_shape {neg : Bool} {ds fs : List Char} {r r2 : List Char}
    {j : Json} (h : parseExpTail neg ds fs r = some (j, r2)) : ∃ m e, j = Json.num m e := by
  rw [parseExpTail] at h
  split at h
  · exact expTailDigits_shape h
  · split at h
    · exact expTailDigits_shape h
    · exact expTailDigits_shape h

theorem parseExpPart_shape {neg : Bool} {ds fs : List Char} {s r2 : List Char}
    {j : Json} (h : parseExpPart neg ds fs s = some (j, r2)) : ∃ m e, j = Json.num m e := by
  rw [parseExpPart] at h
  split at h
  · exact parseExpTail_shape h
  · simp only [Option.some.injEq, Prod.mk.injEq] at h
    exact ⟨_, _, by rw [← h.1]; rfl⟩

theorem parseNumCore_shape {s : List Char} {neg : Bool} {j : Json} {r2 : List Char}
    (h : parseNumCore s neg = some (j, r2)) : ∃ m e, j = Json.num m e := by
  simp only [parseNumCore] at h
  split at h
  · contradiction
  · split at h
    · contradiction
    · split at h
      · split at h
        · contradiction
        · exact parseExpPart_shape h
      · exact parseExpPart_shape h

theorem parseNum_shape {s : List Char} {j : Json} {r2 : List Char}
    (h : parseNum s = some (j, r2)) : ∃ m e, j = Json.num m e := by
  rcases s with _ | ⟨c, t⟩
  · simp [parseNum] at h
  · rw [parseNum] at h
    split at h
    · exact parseNumCore_shape h
    · exact parseNumCore_shape h

theorem head_some_ne_nil {l : List Char} {c : Char} (h : l.head? = some c) : l ≠ [] := by
  intro hl
  rw [hl] at h
  simp at h

theorem skipWs_append_of_head {s ext : List Char} {c : Char}
    (h : (skipWs s).head? = some c) : skipWs (s ++ ext) = skipWs s ++ ext := by
  rcases hs : skipWs s with _ | ⟨d, t⟩
  · rw [hs] at h
    simp at h
  · rw [skipWs_append_cons hs]
    simp [hs]

theorem skipWs_head_ext {s ext : List Char} {c : Char}
    (h : (skipWs s).head? = some c) :
    (skipWs (s ++ ext)).head? = some c ∧ (skipWs (s ++ ext)).tail = (skipWs s).tail ++ ext := by
  rcases hs : skipWs s with _ | ⟨d, t⟩
  · rw [hs] at h
    simp at h
  · rw [hs] at h
    simp only [List.head?_cons] at h
    rw [skipWs_append_cons hs]
    simp [hs, h]

theorem ne_nil_of_skipWs_head {s : List Char} {c : Char}
    (h : (skipWs s).head? = some c) : s ≠ [] := by
  intro hs
  rw [hs] at h
  simp [skipWs] at h

theorem parseMembers_head {fuel : Nat} {s : List Char} {x : List (List Char × Json) × List Char}
    (h : parseMembers fuel s = some x) : (skipWs s).head? = some '"' := by
  match fuel with
  | 0 => simp [parseMembers] at h
  | fuel + 1 =>
    rw [parseMembers] at h
    split at h
    · rename_i c1
      exact c1
    · contradiction

theorem parseVal_head {fuel : Nat} {s : List Char} {x : Json × List Char}
    (h : parseVal fuel s = some x) : ∃ c, (skipWs s).head? = some c := by
  match fuel with
  | 0 => simp [parseVal] at h
  | fuel + 1 =>
    rw [parseVal] at h
    split at h
    · rename_i c1
      exact ⟨_, c1⟩
    · split at h
      · rename_i c2
        exact ⟨_, c2⟩
      · split at h
        · rename_i c3
          exact ⟨_, c3⟩
        · split at h
          · rename_i c4
            exact ⟨_, c4⟩
          · split at h
            · rename_i c5
              exact ⟨_, c5⟩
            · split at h
              · rename_i c6
                exact ⟨_, c6⟩
              · split at h
                · rename_i c heq
                  exact ⟨_, heq⟩
                · contradiction

theorem parseElems_head {fuel : Nat} {s : List Char} {x : List Json × List Char}
    (h : parseElems fuel s = some x) : ∃ c, (skipWs s).head? = some c := by
  match fuel with
  | 0 => simp [parseElems] at h
  | fuel + 1 =>
    rw [parseElems] at h
    split at h
    · rename_i heq
      exact parseVal_head heq
    · contradiction

mutual
theorem parseVal_ext : ∀ (fuel : Nat) (s : List Char) (v : Json) (r ext : List Char),
    parseVal fuel s = some (v, r) → (r ≠ [] ∨ ∀ m e, v ≠ Json.num m e) →
    parseVal fuel (s ++ ext) = some (v, r ++ ext)
  | 0, _, _, _, _, h, _ => by simp [parseVal] at h
  | fuel + 1, s, v, r, ext, h, hr => by
    rw [parseVal] at h ⊢
    split at h
    · rename_i c1
      obtain ⟨hh, ht⟩ := @skipWs_head_ext _ ext _ c1
      rw [if_pos hh, ht]
      split at h
      · rename_i c2
        obtain ⟨hh2, ht2⟩ := @skipWs_head_ext _ ext _ c2
        rw [if_pos hh2, ht2]
        simp only [Option.some.injEq, Prod.mk.injEq] at h
        obtain ⟨rfl, rfl⟩ := h
        rfl
      · rename_i c2
        split at h
        · rename_i ms r2m heq3
          have hq := parseMembers_head heq3
          obtain ⟨hh2, _⟩ := @skipWs_head_ext _ ext _ hq
          rw [if_neg (by rw [hh2]; simp)]
          rw [parseMembers_ext fuel _ ms r2m ext heq3]
          simp only [Option.some.injEq, Prod.mk.injEq] at h
          obtain ⟨rfl, rfl⟩ := h
          rfl
        · contradiction
    · rename_i c1
      split at h
      · rename_i c2
        obtain ⟨hh, ht⟩ := @skipWs_head_ext _ ext _ c2
        rw [if_neg (by rw [hh]; simp), if_pos hh, ht]
        split at h
        · rename_i c3
          obtain ⟨hh2, ht2⟩ := @skipWs_head_ext _ ext _ c3
          rw [if_pos hh2, ht2]
          simp only [Option.some.injEq, Prod.mk.injEq] at h
          obtain ⟨rfl, rfl⟩ := h
          rfl
        · rename_i c3
          split at h
          · rename_i es r2m heq3
            obtain ⟨c, hq⟩ := parseElems_head heq3
            obtain ⟨hh2, _⟩ := @skipWs_head_ext _ ext _ hq
            have hcne : (c : Char) ≠ ']' := by
              intro hc
              exact c3 (by rw [hq, hc])
            rw [if_neg (by rw [hh2]; simp; intro hc; exact absurd hc hcne)]
            rw [parseElems_ext fuel _ es r2m ext heq3]
            simp only [Option.some.injEq, Prod.mk.injEq] at h
            obtain ⟨rfl, rfl⟩ := h
            rfl
          · contradiction
      · rename_i c2
        split at h
        · rename_i c3
          obtain ⟨hh, ht⟩ := @skipWs_head_ext _ ext _ c3
          rw [if_neg (by rw [hh]; simp), if_neg (by rw [hh]; simp), if_pos hh, ht]
          split at h
          · rename_i cs r2m heq2
            rw [parseStrA_ext _ cs r2m ext heq2]
            simp only [Option.some.injEq, Prod.mk.injEq] at h
            obtain ⟨rfl, rfl⟩ := h
            rfl
          · contradiction
        · rename_i c3
          split at h
          · rename_i c4
            obtain ⟨hh, ht⟩ := @skipWs_head_ext _ ext _ c4
            rw [if_neg (by rw [hh]; simp), if_neg (by rw [hh]; simp),
              if_neg (by rw [hh]; simp), if_pos hh, ht]
            split at h
            · rename_i r2m heq2
              rw [expectL_ext _ _ r2m ext heq2]
              simp only [Option.some.injEq, Prod.mk.injEq] at h
              obtain ⟨rfl, rfl⟩ := h
              rfl
            · contradiction
          · rename_i c4
            split at h
            · rename_i c5
              obtain ⟨hh, ht⟩ := @skipWs_head_ext _ ext _ c5
              rw [if_neg (by rw [hh]; simp), if_neg (by rw [hh]; simp),
                if_neg (by rw [hh]; simp), if_neg (by rw [hh]; simp), if_pos hh, ht]
              split at h
              · rename_i r2m heq2
                rw [expectL_ext _ _ r2m ext heq2]
                simp only [Option.some.injEq, Prod.mk.injEq] at h
                obtain ⟨rfl, rfl⟩ := h
                rfl
              · contradiction
            · rename_i c5
              split at h
              · rename_i c6
                obtain ⟨hh, ht⟩ := @skipWs_head_ext _ ext _ c6
                rw [if_neg (by rw [hh]; simp), if_neg (by rw [hh]; simp),
                  if_neg (by rw [hh]; simp), if_neg (by rw [hh]; simp),
                  if_neg (by rw [hh]; simp), if_pos hh, ht]
                split at h
                · rename_i r2m heq2
                  rw [expectL_ext _ _ r2m ext heq2]
                  simp only [Option.some.injEq, Prod.mk.injEq] at h
                  obtain ⟨rfl, rfl⟩ := h
                  rfl
                · contradiction
              · rename_i c6
                split at h
                · rename_i c heq
                  obtain ⟨hh, _⟩ := @skipWs_head_ext _ ext _ heq
                  rw [if_neg (by rw [hh, ← heq]; exact c1),
                    if_neg (by rw [hh, ← heq]; exact c2),
                    if_neg (by rw [hh, ← heq]; exact c3),
                    if_neg (by rw [hh, ← heq]; exact c4),
                    if_neg (by rw [hh, ← heq]; exact c5),
                    if_neg (by rw [hh, ← heq]; exact c6)]
                  rw [hh]
                  dsimp only
                  split at h
                  · rename_i hcond
                    have hrne : r ≠ [] := by
                      rcases hr with hne | hnum
                      · exact hne
                      · obtain ⟨m, e, hm⟩ := parseNum_shape h
                        exact absurd hm (hnum m e)
                    rw [if_pos hcond, skipWs_append_of_head heq]
                    exact parseNum_ext h hrne
                  · contradiction
                · contradiction

theorem parseElems_ext : ∀ (fuel : Nat) (s : List Char) (es : List Json) (r ext : List Char),
    parseElems fuel s = some (es, r) → parseElems fuel (s ++ ext) = some (es, r ++ ext)
  | 0, _, _, _, _, h => by simp [parseElems] at h
  | fuel + 1, s, es, r, ext, h => by
    rw [parseElems] at h ⊢
    split at h
    · rename_i v r1 heq
      have hr1 : r1 ≠ [] := by
        split at h
        · rename_i c1
          exact ne_nil_of_skipWs_head c1
        · split at h
          · rename_i c2
            exact ne_nil_of_skipWs_head c2
          · contradiction
      rw [parseVal_ext fuel s v r1 ext heq (Or.inl hr1)]
      dsimp only
      split at h
      · rename_i c1
        obtain ⟨hh, ht⟩ := @skipWs_head_ext _ ext _ c1
        rw [if_pos hh, ht]
        split at h
        · rename_i vs r3 heq3
          rw [parseElems_ext fuel _ vs r3 ext heq3]
          simp only [Option.some.injEq, Prod.mk.injEq] at h
          obtain ⟨rfl, rfl⟩ := h
          rfl
        · contradiction
      · rename_i c1
        split at h
        · rename_i c2
          obtain ⟨hh, ht⟩ := @skipWs_head_ext _ ext _ c2
          rw [if_neg (by rw [hh]; simp), if_pos hh, ht]
          simp only [Option.some.injEq, Prod.mk.injEq] at h
          obtain ⟨rfl, rfl⟩ := h
          rfl
        · contradiction
    · contradiction

theorem parseMembers_ext : ∀ (fuel : Nat) (s : List Char) (ms : List (List Char × Json))
    (r ext : List Char),
    parseMembers fuel s = some (ms, r) → parseMembers fuel (s ++ ext) = some (ms, r ++ ext)
  | 0, _, _, _, _, h => by simp [parseMembers] at h
  | fuel + 1, s, ms, r, ext, h => by
    rw [parseMembers] at h ⊢
    split at h
    · rename_i c1
      obtain ⟨hh, ht⟩ := @skipWs_head_ext _ ext _ c1
      rw [if_pos hh, ht]
      split at h
      · rename_i k r1 heq
        rw [parseStrA_ext _ k r1 ext heq]
        dsimp only
        split at h
        · rename_i c2
          obtain ⟨hh2, ht2⟩ := @skipWs_head_ext _ ext _ c2
          rw [if_pos hh2, ht2]
          split at h
          · rename_i v r3 heq2
            have hr3 : r3 ≠ [] := by
              split at h
              · rename_i c3
                exact ne_nil_of_skipWs_head c3
              · split at h
                · rename_i c4
                  exact ne_nil_of_skipWs_head c4
                · contradiction
            rw [parseVal_ext fuel _ v r3 ext heq2 (Or.inl hr3)]
            dsimp only
            split at h
            · rename_i c3
              obtain ⟨hh3, ht3⟩ := @skipWs_head_ext _ ext _ c3
              rw [if_pos hh3, ht3]
              split at h
              · rename_i ms2 r5 heq3
                rw [parseMembers_ext fuel _ ms2 r5 ext heq3]
                simp only [Option.some.injEq, Prod.mk.injEq] at h
                obtain ⟨rfl, rfl⟩ := h
                rfl
              · contradiction
            · rename_i c3
              split at h
              · rename_i c4
                obtain ⟨hh3, ht3⟩ := @skipWs_head_ext _ ext _ c4
                rw [if_neg (by rw [hh3]; simp), if_pos hh3, ht3]
                simp only [Option.some.injEq, Prod.mk.injEq] at h
                obtain ⟨rfl, rfl⟩ := h
                rfl
              · contradiction
          · contradiction
        · contradiction
      · contradiction
    · contradiction
end

theorem parseVal_arr_head {fuel : Nat} {s : List Char} {w : List Json} {r : List Char}
    (h : parseVal fuel s = some (Json.arr w, r)) : (skipWs s).head? = some '[' := by
  match fuel with
  | 0 => simp [parseVal] at h
  | fuel + 1 =>
    rw [parseVal] at h
    split at h
    · split at h
      · simp at h
      · split at h
        · simp at h
        · contradiction
    · rename_i c1
      split at h
      · rename_i c2
        exact c2
      · split at h
        · split at h
          · simp at h
          · contradiction
        · split at h
          · split at h
            · simp at h
            · contradiction
          · split at h
            · split at h
              · simp at h
              · contradiction
            · split at h
              · split at h
                · simp at h
                · contradiction
              · split at h
                · split at h
                  · obtain ⟨m, e, hm⟩ := parseNum_shape h
                    simp at hm
                  · contradiction
                · contradiction

theorem parseVal_congr {fuel : Nat} {s1 s2 : List Char} (h : skipWs s1 = skipWs s2) :
    parseVal fuel s1 = parseVal fuel s2 := by
  match fuel with
  | 0 => rfl
  | fuel + 1 =>
    conv_lhs => rw [parseVal]
    conv_rhs => rw [parseVal]
    rw [h]

theorem idxOf_append_not_mem {q1 rest : List Char} {d : Char}
    (hq : ∀ c ∈ q1, c ≠ d) : idxOf (q1 ++ d :: rest) d = some q1.length := by
  induction q1 with
  | nil => simp [idxOf]
  | cons c t ih =>
    have hc : c ≠ d := hq c (by simp)
    simp only [List.cons_append, idxOf, if_neg hc, List.append_eq]
    rw [ih (fun x hx => hq x (by simp [hx]))]
    rfl

theorem mem_of_dropWhile_cons {p : Char → Bool} {l t : List Char} {c : Char}
    (h : l.dropWhile p = c :: t) : c ∈ l := by
  have hs : l.dropWhile p <:+ l := List.dropWhile_suffix p
  exact hs.subset (h ▸ List.mem_cons_self c t)

theorem head_ne_of_dropWhile {p : Char → Bool} {l t : List Char} {c : Char}
    (h : l.dropWhile p = c :: t) : p c = false := by
  have := List.head?_dropWhile_not p l
  rw [h] at this
  simpa using this

theorem json_array_len2 {j : List Char} (hh : j.head? = some '[') (hl : j.getLast? = some ']') :
    2 ≤ j.length := by
  rcases j with _ | ⟨c, t⟩
  · simp at hh
  · rcases t with _ | ⟨c2, t2⟩
    · simp at hh hl
      subst hh
      exact absurd hl (by decide)
    · simp

theorem dropWhile_append_headne {p : Char → Bool} {a b t : List Char} {c : Char}
    (hb : b = c :: t) (hc : p c = false) :
    (a ++ b).dropWhile p = a.dropWhile p ++ b := by
  rw [List.dropWhile_append]
  split
  · rename_i he
    simp only [List.isEmpty_iff] at he
    rw [he, hb]
    simp [List.dropWhile_cons, hc]
  · rfl

/-- Trimming text that has a non-whitespace core: the core survives and only
the flanks are trimmed. -/
theorem jsTrim_decomp {q1 j q2 : List Char} {ch cl : Char}
    (hh : j.head? = some ch) (hch : isJsSp ch = false)
    (hl : j.getLast? = some cl) (hcl : isJsSp cl = false) :
    jsTrim (q1 ++ j ++ q2) =
      q1.dropWhile isJsSp ++ j ++ (q2.reverse.dropWhile isJsSp).reverse := by
  obtain ⟨jt, hjt⟩ : ∃ jt, j = ch :: jt := by
    rcases j with _ | ⟨c, jt⟩
    · simp at hh
    · simp only [List.head?_cons, Option.some.injEq] at hh
      exact ⟨jt, by rw [hh]⟩
  obtain ⟨jr, hjr⟩ : ∃ jr, j.reverse = cl :: jr := by
    have : j.reverse.head? = some cl := by
      rw [← List.getLast?_eq_head?_reverse]
      exact hl
    rcases hjrev : j.reverse with _ | ⟨c, jr⟩
    · rw [hjrev] at this
      simp at this
    · rw [hjrev] at this
      simp only [List.head?_cons, Option.some.injEq] at this
      exact ⟨jr, by rw [this]⟩
  rw [jsTrim]
  rw [List.append_assoc]
  rw [dropWhile_append_headne (by rw [hjt]; rfl : j ++ q2 = ch :: (jt ++ q2)) hch]
  rw [List.reverse_append, List.reverse_append]
  rw [List.append_assoc]
  rw [dropWhile_append_headne (by rw [hjr]; rfl : j.reverse ++ (q1.dropWhile isJsSp).reverse
    = cl :: (jr ++ (q1.dropWhile isJsSp).reverse)) hcl]
  simp [List.reverse_append]

/-- The central recovery fact: on cleaned text of the form
`noise ++ array ++ noise`, where the leading noise contains no `[`, the
trailing noise contains no `]`, and the array literal parses exactly, the
direct-parse-or-slice logic returns exactly the parsed array. -/
theorem arrayFromCleaned_recover {q1 j q2 : List Char} {v : List Json}
    (hj : jsonParseExact j = some (Json.arr v))
    (hhead : j.head? = some '[') (hlast : j.getLast? = some ']')
    (hq1 : ∀ c ∈ q1, c ≠ '[') (hq2 : ∀ c ∈ q2, c ≠ ']') :
    arrayFromCleaned (q1 ++ j ++ q2) = some v := by
  have hp : parseVal (2 * j.length + 2) j = some (Json.arr v, []) := by
    rcases hparse : parseVal (2 * j.length + 2) j with _ | ⟨v', r⟩
    · rw [jsonParseExact, hparse] at hj
      simp at hj
    · rw [jsonParseExact, hparse] at hj
      rcases r with _ | ⟨c, t⟩
      · dsimp only at hj
        simp only [Option.some.injEq] at hj
        rw [hj]
      · dsimp only at hj
        exact absurd hj (by simp)
  obtain ⟨jt, hjt⟩ : ∃ jt, j = '[' :: jt := by
    rcases j with _ | ⟨c, jt⟩
    · simp at hhead
    · simp only [List.head?_cons, Option.some.injEq] at hhead
      exact ⟨jt, by rw [hhead]⟩
  have hlen2 := json_array_len2 hhead hlast
  have hflen : j.length ≤ (q1 ++ j ++ q2).length := by
    simp [List.length_append]
    omega
  have hpM : parseVal (2 * (q1 ++ j ++ q2).length + 2) j = some (Json.arr v, []) :=
    parseVal_mono j _ (by omega) hp
  have hpE : parseVal (2 * (q1 ++ j ++ q2).length + 2) (j ++ q2) = some (Json.arr v, q2) := by
    have := parseVal_ext _ j (Json.arr v) [] q2 hpM (Or.inr (by intro m e hme; simp at hme))
    simpa using this
  have hskipj : skipWs (j ++ q2) = j ++ q2 := by
    rw [hjt]
    simp only [List.cons_append, skipWs]
    rw [List.dropWhile_cons_of_neg]
    decide
  -- the slice from the first '[' to the last ']' is exactly the array text
  have hidx : idxOf (q1 ++ j ++ q2) '[' = some q1.length := by
    rw [List.append_assoc, hjt]
    exact idxOf_append_not_mem hq1
  have hlidx : lastIdxOf (q1 ++ j ++ q2) ']' = some (q1.length + j.length - 1) := by
    obtain ⟨jr, hjr⟩ : ∃ jr, j.reverse = ']' :: jr := by
      have hrl : j.reverse.head? = some ']' := by
        rw [← List.getLast?_eq_head?_reverse]
        exact hlast
      rcases hjrev : j.reverse with _ | ⟨c, jr⟩
      · rw [hjrev] at hrl
        simp at hrl
      · rw [hjrev] at hrl
        simp only [List.head?_cons, Option.some.injEq] at hrl
        exact ⟨jr, by rw [hrl]⟩
    rw [lastIdxOf]
    rw [List.reverse_append, List.reverse_append]
    rw [show j.reverse ++ q1.reverse = ']' :: (jr ++ q1.reverse) by rw [hjr]; rfl]
    rw [idxOf_append_not_mem (by
      intro c hc
      exact hq2 c (by simpa using hc))]
    simp only [Option.map_some', Option.some.injEq]
    simp [List.length_append, List.length_reverse]
    omega
  have hslice : (((q1 ++ j ++ q2).drop q1.length).take (q1.length + j.length - 1 + 1 - q1.length))
      = j := by
    have h1 : (q1 ++ j ++ q2).drop q1.length = j ++ q2 := by
      rw [List.append_assoc]
      exact List.drop_left q1 (j ++ q2)
    rw [h1]
    have h2 : q1.length + j.length - 1 + 1 - q1.length = j.length := by omega
    rw [h2]
    exact List.take_left j q2
  have hjp : jsonParse j = some (Json.arr v) := by
    rw [jsonParse, hp]
    simp [skipWs]
  rw [arrayFromCleaned]
  split
  · -- the direct whole-string parse succeeded with an array
    rename_i l hjl
    rw [jsonParse] at hjl
    split at hjl
    · rename_i v' r' heq'
      split at hjl
      · rename_i hws
        simp only [Option.some.injEq] at hjl
        subst hjl
        have hhead' : (skipWs (q1 ++ j ++ q2)).head? = some '[' :=
          parseVal_arr_head heq'
        have hq1ws : q1.dropWhile isJWs = [] := by
          rcases hdq : q1.dropWhile isJWs with _ | ⟨c, t⟩
          · rfl
          · exfalso
            have hc1 : c ∈ q1 := mem_of_dropWhile_cons hdq
            have hsk : skipWs (q1 ++ j ++ q2) = c :: (t ++ (j ++ q2)) := by
              rw [List.append_assoc, skipWs]
              rw [dropWhile_append_cons hdq]
            rw [hsk] at hhead'
            simp only [List.head?_cons, Option.some.injEq] at hhead'
            exact hq1 c hc1 hhead'
        have hskipfull : skipWs (q1 ++ j ++ q2) = j ++ q2 := by
          rw [List.append_assoc, skipWs, dropWhile_append_nil hq1ws]
          exact hskipj
        have hcongr : parseVal (2 * (q1 ++ j ++ q2).length + 2) (q1 ++ j ++ q2)
            = parseVal (2 * (q1 ++ j ++ q2).length + 2) (j ++ q2) :=
          parseVal_congr (by rw [hskipfull, hskipj])
        rw [hcongr, hpE] at heq'
        simp only [Option.some.injEq, Prod.mk.injEq, Json.arr.injEq] at heq'
        rw [heq'.1]
      · contradiction
    · contradiction
  · -- direct parse gave no array: the bracket slice recovers it
    rw [hidx, hlidx]
    dsimp only
    rw [if_pos (by omega)]
    rw [hslice, hjp]

/-! ### Behaviour of the fence stripper on fenced and fence-free text -/

theorem isAl_ne_tick {c : Char} (h : isAl c = true) : c ≠ tick := by
  intro hc
  rw [hc] at h
  exact absurd h (by decide)

theorem strip1_cons_false {c : Char} {rest : List Char} (hc : c ≠ tick) :
    strip1 false (c :: rest) = c :: strip1 false rest := by
  rcases rest with _ | ⟨c2, rest2⟩
  · simp [strip1, hc]
  · rcases rest2 with _ | ⟨c3, rest3⟩
    · simp [strip1, hc]
    · simp [strip1, hc]

theorem strip1_true_alpha {c : Char} {rest : List Char} (ha : isAl c = true) :
    strip1 true (c :: rest) = strip1 true rest := by
  have hc := isAl_ne_tick ha
  have hn : c ≠ '\n' := by
    intro hcn
    rw [hcn] at ha
    exact absurd ha (by decide)
  rcases rest with _ | ⟨c2, rest2⟩
  · simp [strip1, hc, ha, hn]
  · rcases rest2 with _ | ⟨c3, rest3⟩
    · simp [strip1, hc, ha, hn]
    · simp [strip1, hc, ha, hn]

theorem strip1_true_nl {rest : List Char} :
    strip1 true ('\n' :: rest) = strip1 false rest := by
  have h1 : ('\n' : Char) ≠ tick := by decide
  have h2 : isAl '\n' = false := by decide
  rcases rest with _ | ⟨c2, rest2⟩
  · simp [strip1, h1, h2]
  · rcases rest2 with _ | ⟨c3, rest3⟩
    · simp [strip1, h1, h2]
    · simp [strip1, h1, h2]

theorem strip1_true_other {c : Char} {rest : List Char} (hc : c ≠ tick)
    (ha : isAl c = false) (hn : c ≠ '\n') :
    strip1 true (c :: rest) = c :: strip1 false rest := by
  rcases rest with _ | ⟨c2, rest2⟩
  · simp [strip1, hc, ha, hn]
  · rcases rest2 with _ | ⟨c3, rest3⟩
    · simp [strip1, hc, ha, hn]
    · simp [strip1, hc, ha, hn]

theorem strip1_fence {st : Bool} {rest : List Char} :
    strip1 st (tick :: tick :: tick :: rest) = strip1 true rest := by
  simp [strip1]

theorem strip2_cons_ne {c : Char} {rest : List Char} (hc : c ≠ tick) :
    strip2 (c :: rest) = c :: strip2 rest := by
  rcases rest with _ | ⟨c2, rest2⟩
  · simp [strip2]
  · rcases rest2 with _ | ⟨c3, rest3⟩
    · simp [strip2]
    · simp [strip2, hc]

theorem strip1_false_copy {l r : List Char} (hl : ∀ c ∈ l, c ≠ tick) :
    strip1 false (l ++ r) = l ++ strip1 false r := by
  induction l with
  | nil => rfl
  | cons c t ih =>
    rw [List.cons_append, strip1_cons_false (hl c (by simp))]
    rw [ih (fun x hx => hl x (by simp [hx]))]
    rfl

theorem strip1_false_id {l : List Char} (hl : ∀ c ∈ l, c ≠ tick) :
    strip1 false l = l := by
  induction l with
  | nil => rfl
  | cons c t ih =>
    rw [strip1_cons_false (hl c (by simp))]
    rw [ih (fun x hx => hl x (by simp [hx]))]

theorem strip1_tag {tag r : List Char} (ht : ∀ c ∈ tag, isAl c = true) :
    strip1 true (tag ++ '\n' :: r) = strip1 false r := by
  induction tag with
  | nil => exact strip1_true_nl
  | cons c t ih =>
    rw [List.cons_append, strip1_true_alpha (ht c (by simp))]
    exact ih (fun x hx => ht x (by simp [hx]))

/-- The residue the second ````` fence leaves of the trailing prose: the
regex `` ```[a-zA-Z]*\n? `` also consumes any letters (and one newline)
directly following the closing fence. -/
def dropTag (l : List Char) : List Char :=
  if (l.dropWhile isAl).head? = some '\n' then (l.dropWhile isAl).tail else l.dropWhile isAl

theorem strip1_true_notick {l : List Char} (hl : ∀ c ∈ l, c ≠ tick) :
    strip1 true l = dropTag l := by
  induction l with
  | nil => rfl
  | cons c t ih =>
    by_cases ha : isAl c = true
    · rw [strip1_true_alpha ha, ih (fun x hx => hl x (by simp [hx]))]
      simp [dropTag, List.dropWhile_cons, ha]
    · have ha' : isAl c = false := by simpa using ha
      by_cases hn : c = '\n'
      · subst hn
        rw [strip1_true_nl, strip1_false_id (fun x hx => hl x (by simp [hx]))]
        simp [dropTag, List.dropWhile_cons, ha']
      · rw [strip1_true_other (hl c (by simp)) ha' hn]
        rw [strip1_false_id (fun x hx => hl x (by simp [hx]))]
        simp [dropTag, List.dropWhile_cons, ha', hn]

theorem strip2_id {l : List Char} (hl : ∀ c ∈ l, c ≠ tick) : strip2 l = l := by
  induction l with
  | nil => rfl
  | cons c t ih =>
    rw [strip2_cons_ne (hl c (by simp))]
    rw [ih (fun x hx => hl x (by simp [hx]))]

theorem mem_dropTag {l : List Char} {c : Char} (h : c ∈ dropTag l) : c ∈ l := by
  have hsub : dropTag l <:+ l := by
    rw [dropTag]
    split
    · exact (List.tail_suffix _).trans (List.dropWhile_suffix _)
    · exact List.dropWhile_suffix _
  exact hsub.subset h

theorem mem_revDropRev {l : List Char} {c : Char}
    (h : c ∈ (l.reverse.dropWhile isJsSp).reverse) : c ∈ l := by
  rw [List.mem_reverse] at h
  have := (List.dropWhile_suffix (l := l.reverse) isJsSp).subset h
  rwa [List.mem_reverse] at this

/-- Stripping a fenced block: the fences (with language tag) vanish, the
closing fence additionally eats any directly following letters and one
newline of the trailing prose, and the result is trimmed. -/
theorem stripCodeFences_fenced {p1 tag j p2 : List Char}
    (hp1 : ∀ c ∈ p1, c ≠ tick) (hj : ∀ c ∈ j, c ≠ tick) (hp2 : ∀ c ∈ p2, c ≠ tick)
    (htag : ∀ c ∈ tag, isAl c = true) :
    stripCodeFences
      (p1 ++ (tick :: tick :: tick :: (tag ++ '\n' :: (j ++ (tick :: tick :: tick :: p2)))))
      = jsTrim (p1 ++ j ++ dropTag p2) := by
  rw [stripCodeFences]
  rw [if_neg (by simp)]
  rw [strip1_false_copy hp1, strip1_fence, strip1_tag htag, strip1_false_copy hj, strip1_fence,
    strip1_true_notick hp2]
  rw [strip2_id (by
    intro c hc
    rcases List.mem_append.mp hc with hcc | hcc
    · exact hp1 c hcc
    · rcases List.mem_append.mp hcc with hcd | hcd
      · exact hj c hcd
      · exact hp2 c (mem_dropTag hcd))]
  rw [List.append_assoc]

/-- Stripping fence-free text only trims it. -/
theorem stripCodeFences_plain {p1 j p2 : List Char}
    (hp1 : ∀ c ∈ p1, c ≠ tick) (hj : ∀ c ∈ j, c ≠ tick) (hp2 : ∀ c ∈ p2, c ≠ tick)
    (hne : j ≠ []) :
    stripCodeFences (p1 ++ j ++ p2) = jsTrim (p1 ++ j ++ p2) := by
  rw [stripCodeFences]
  rw [if_neg (by simp [hne])]
  rw [strip1_false_id (by
    intro c hc
    rcases List.mem_append.mp hc with hcc | hcc
    · rcases List.mem_append.mp hcc with hcd | hcd
      · exact hp1 c hcd
      · exact hj c hcd
    · exact hp2 c hcc)]
  rw [strip2_id (by
    intro c hc
    rcases List.mem_append.mp hc with hcc | hcc
    · rcases List.mem_append.mp hcc with hcd | hcd
      · exact hp1 c hcd
      · exact hj c hcd
    · exact hp2 c hcc)]

/-- Combined recovery through trimming: the cleaned text is noise-plus-array,
so the array is recovered exactly. -/
theorem arrayFromTrim_recover {q1 j q2 : List Char} {v : List Json}
    (hjson : jsonParseExact j = some (Json.arr v))
    (hhead : j.head? = some '[') (hlast : j.getLast? = some ']')
    (hq1 : ∀ c ∈ q1, c ≠ '[') (hq2 : ∀ c ∈ q2, c ≠ ']') :
    arrayFromCleaned (jsTrim (q1 ++ j ++ q2)) = some v := by
  rw [jsTrim_decomp hhead (by decide) hlast (by decide)]
  exact arrayFromCleaned_recover hjson hhead hlast
    (fun c hc => hq1 c ((List.dropWhile_suffix isJsSp).subset hc))
    (fun c hc => hq2 c (mem_revDropRev hc))

/-! ### Facts about rounding, scaling and normalization -/

/-- A JavaScript number already representable with two decimal places. -/
def twoDec (x : JNum) : Prop :=
  ∀ q : ℚ, x = JNum.fin q → ∃ n : ℤ, q * 100 = (n : ℚ)

theorem round2_eq_self {q : ℚ} {n : ℤ} (h : q * 100 = (n : ℚ)) : round2 q = q := by
  have hfl : ∀ m : ℤ, (⌊(m : ℚ) + 1 / 2⌋ : ℤ) = m := by
    intro m
    rw [add_comm, Int.floor_add_int]
    norm_num
  rw [round2]
  by_cases hq : 0 ≤ q
  · rw [if_pos hq, h, hfl n]
    field_simp at h ⊢
    linarith
  · rw [if_neg hq]
    have hneg : -(q * 100) = ((-n : ℤ) : ℚ) := by
      rw [h]
      push_cast
      ring
    rw [hneg, hfl (-n)]
    push_cast
    field_simp at h ⊢
    linarith

theorem scaleField_one {x : JNum} (h2 : twoDec x) : scaleField x (JNum.fin 1) = x := by
  match x with
  | JNum.nan => rfl
  | JNum.inf s =>
    show toFixed2 (jmul (JNum.inf s) (JNum.fin 1)) = JNum.inf s
    rw [show jmul (JNum.inf s) (JNum.fin 1)
        = if (1 : ℚ) = 0 then JNum.nan else JNum.inf (if 0 < (1 : ℚ) then s else !s) from rfl]
    rw [if_neg (by norm_num), if_pos (by norm_num)]
    rfl
  | JNum.fin q =>
    obtain ⟨n, hn⟩ := h2 q rfl
    show toFixed2 (jmul (JNum.fin q) (JNum.fin 1)) = JNum.fin q
    rw [show jmul (JNum.fin q) (JNum.fin 1) = JNum.fin (q * 1) from rfl]
    show JNum.fin (round2 (q * 1)) = JNum.fin q
    rw [mul_one, round2_eq_self hn]

theorem scaleField_fin (q sc : ℚ) :
    scaleField (JNum.fin q) (JNum.fin sc) = JNum.fin (round2 (q * sc)) := rfl

/-- `Number(x || 0)` on a present, truthy value is the numeric coercion. -/
theorem jnum0_truthy {x : Option Json} {v : Json} (hx : x = some v) (ht : truthy v = true) :
    jnum0 x = jsToNumber v := by
  subst hx
  show (if truthy v then jsToNumber v else JNum.fin 0) = jsToNumber v
  rw [if_pos ht]

/-- `Number(x || 0)` on an absent value is zero. -/
theorem jnum0_none {x : Option Json} (hx : x = none) : jnum0 x = JNum.fin 0 := by
  subst hx
  rfl

/-- `Number(x || 0)` on a falsy value is zero. -/
theorem jnum0_falsy {x : Option Json} {v : Json} (hx : x = some v) (ht : truthy v = false) :
    jnum0 x = JNum.fin 0 := by
  subst hx
  show (if truthy v then jsToNumber v else JNum.fin 0) = JNum.fin 0
  rw [if_neg (by simp [ht])]

/-- The three-way specification of one normalized numeric field. -/
def fieldSpec (out : JNum) (raw : Option Json) : Prop :=
  (raw = none → out = JNum.fin 0) ∧
  (∀ v, raw = some v → truthy v = false → out = JNum.fin 0) ∧
  (∀ v, raw = some v → truthy v = true → out = jsToNumber v)

theorem jnum0_fieldSpec (raw : Option Json) : fieldSpec (jnum0 raw) raw :=
  ⟨fun h => jnum0_none h, fun _ hv ht => jnum0_falsy hv ht, fun _ hv ht => jnum0_truthy hv ht⟩

/-- A normalized field is a non-negative finite number provided the raw field
is absent, falsy, or coerces to a non-negative finite number. -/
theorem jnum0_nonneg {raw : Option Json}
    (h : ∀ v, raw = some v → truthy v = true → ∃ q : ℚ, jsToNumber v = JNum.fin q ∧ 0 ≤ q) :
    ∃ q : ℚ, jnum0 raw = JNum.fin q ∧ 0 ≤ q := by
  match hr : raw with
  | none => exact ⟨0, jnum0_none rfl, le_refl 0⟩
  | some v =>
    by_cases ht : truthy v = true
    · obtain ⟨q, hq, hq0⟩ := h v rfl ht
      exact ⟨q, by rw [jnum0_truthy rfl ht, hq], hq0⟩
    · exact ⟨0, jnum0_falsy rfl (by simpa using ht), le_refl 0⟩

/-- Case-insensitive matching lowers the matched text to the alternative. -/
theorem ciPre_lower : ∀ (pat s u rest : List Char), ciPre pat s = some (u, rest) →
    u.map Char.toLower = pat.map Char.toLower
  | [], s, u, rest, h => by
    simp [ciPre] at h
    simp [h.1]
  | p :: ps, [], u, rest, h => by simp [ciPre] at h
  | p :: ps, c :: s, u, rest, h => by
    rw [ciPre] at h
    split at h
    · rename_i hpc
      rcases Option.map_eq_some'.mp h with ⟨⟨u', rest'⟩, hp, hmk⟩
      simp only [Prod.mk.injEq] at hmk
      obtain ⟨h1, h2⟩ := hmk
      subst h1
      subst h2
      simp only [List.map_cons]
      rw [ciPre_lower ps s u' rest' hp, hpc]
    · contradiction

theorem firstUnit_mem : ∀ (alts : List (List Char)) (s u rest : List Char),
    firstUnit alts s = some (u, rest) → ∃ a ∈ alts, ciPre a s = some (u, rest)
  | [], s, u, rest, h => by simp [firstUnit] at h
  | a :: as, s, u, rest, h => by
    rw [firstUnit] at h
    split at h
    · rename_i m hm
      exact ⟨a, by simp, by rw [hm, h]⟩
    · obtain ⟨a', ha', hp⟩ := firstUnit_mem as s u rest h
      exact ⟨a', by simp [ha'], hp⟩

/-! ### Behaviour of the quantity parser and the object extractor -/

theorem parseAmountUnit_nomatch {t : List Char} (h : scanQuant t = none) :
    parseAmountUnit t = ⟨none, none, none, t⟩ := by
  rw [parseAmountUnit]
  by_cases ht : t = []
  · rw [if_pos ht]
  · rw [if_neg ht, h]

theorem parseAmountUnit_some {t pre nl u rest : List Char}
    (h : scanQuant t = some (pre, nl, u, rest)) :
    parseAmountUnit t
      = ⟨gramsOfUnit (u.map Char.toLower) (ratOfLex nl), some (u.map Char.toLower),
         some (ratOfLex nl), jsTrim (pre ++ rest)⟩ := by
  have ht : t ≠ [] := by
    intro h0
    rw [h0] at h
    exact Option.noConfusion h
  rw [parseAmountUnit, if_neg ht, h]

theorem objectFromCleaned_some {cleaned : List Char} {v : Json}
    (hp : jsonParse cleaned = some v) (ho : isObjLike v = true) :
    objectFromCleaned cleaned = some v := by
  rw [objectFromCleaned.eq_def, hp]
  dsimp only
  rw [if_pos ho]

/-- C3: the specification says `extractObject` fails whenever the parsed
top-level value is not an object; in fact the guard
`parsed && typeof parsed === 'object'` also accepts JSON arrays, so an
array-valued text is returned as-is instead of producing Failure. -/
theorem c3_object_counterexample :
    safeParseJsonObjectFromText ( "[1, 2]".data)
      = some (Json.arr [Json.num 1 0, Json.num 2 0]) ∧
    isObjLike (Json.arr [Json.num 1 0, Json.num 2 0]) = true := ⟨rfl, rfl⟩

/-- C3 (amended): `safeParseJsonObjectFromText` returns any parsed value the
guard `parsed && typeof parsed === 'object'` accepts — objects and also
arrays — whenever the cleaned text parses directly. -/
theorem c3_object_shape (t : List Char) (v : Json)
    (hp : jsonParse (stripCodeFences t) = some v) (ho : isObjLike v = true) :
    safeParseJsonObjectFromText t = some v := by
  rw [safeParseJsonObjectFromText]
  exact objectFromCleaned_some hp ho

theorem c3_object_shape_witness :
    safeParseJsonObjectFromText ([ '{', '"', 'a', '"', ':', '1', '}'])
      = some (Json.obj [([ 'a'], Json.num 1 0)]) :=
  c3_object_shape _ _ rfl rfl

/-- C5: when the quantity regex has no match, `parseAmountUnit` leaves
`amount`, `unit` and `grams` null, but `baseText` is the original query
untrimmed (the claim says trimmed): the input `" apple "` comes back with
its surrounding spaces. -/
theorem c5_no_match_counterexample :
    parseAmountUnit ( " apple ".data) = ⟨none, none, none, ( " apple ".data)⟩ ∧
    ( " apple ".data) ≠ jsTrim ( " apple ".data) := by
  constructor
  · exact parseAmountUnit_nomatch (by decide)
  · decide

/-- C5 (amended): when the quantity regex has no match, `parseAmountUnit`
returns `amount`, `unit` and `grams` all null and `baseText` equal to the
original query itself (untrimmed). -/
theorem c5_no_match (t : List Char) (h : scanQuant t = none) :
    parseAmountUnit t = ⟨none, none, none, t⟩ :=
  parseAmountUnit_nomatch h

theorem c5_no_match_witness :
    scanQuant ( "apple".data) = none ∧
    parseAmountUnit ( "apple".data) = ⟨none, none, none, ( "apple".data)⟩ :=
  ⟨by decide, c5_no_match ( "apple".data) (by decide)⟩

/-- C10: the quantity regex has no word boundary after the unit, so
`"150 grapes"` parses as amount 150 with unit `g` (the leading letter of
`grapes`), grams 150, and remainder `"rapes"`. -/
theorem c10_prefix_unit :
    parseAmountUnit ( "150 grapes".data)
      = ⟨some 150, some [ 'g'], some 150, ( "rapes".data)⟩ := by
  have h : parseAmountUnit ( "150 grapes".data)
      = ⟨some (((150 : ℕ) : ℚ) / (10 : ℚ) ^ (0 : ℕ)), some [ 'g'],
         some (((150 : ℕ) : ℚ) / (10 : ℚ) ^ (0 : ℕ)), ( "rapes".data)⟩ := rfl
  rw [h]
  simp only [ParsedQuantity.mk.injEq]
  norm_num

/-- C4: the extraction property fails for prose that itself contains a `[`
before the array: the bracket-slicing fallback cuts from the *first* `[`,
so `"a[ [1]"` yields nothing even though `"[1]"` parses as an array. -/
theorem c4_extract_array_counterexample :
    safeParseJsonArrayFromText ( "a[ [1]".data) = none ∧
    jsonParse ( "[1]".data) = some (Json.arr [Json.num 1 0]) := ⟨rfl, rfl⟩

/-- C4 (amended): for a JSON array literal wrapped in leading/trailing prose
and optionally in a fenced code block, `safeParseJsonArrayFromText` recovers
exactly the parsed array — provided the leading prose contains no `[`, the
trailing prose contains no `]`, and neither prose nor the literal contains a
backtick. -/
theorem c4_extract_array (p1 tag j p2 : List Char) (v : List Json)
    (hjson : jsonParseExact j = some (Json.arr v))
    (hhead : j.head? = some '[') (hlast : j.getLast? = some ']')
    (hp1 : ∀ c ∈ p1, c ≠ '[' ∧ c ≠ tick)
    (hp2 : ∀ c ∈ p2, c ≠ ']' ∧ c ≠ tick)
    (hj : ∀ c ∈ j, c ≠ tick)
    (htag : ∀ c ∈ tag, isAl c = true) :
    safeParseJsonArrayFromText
        (p1 ++ (tick :: tick :: tick :: (tag ++ '\n' :: (j ++ (tick :: tick :: tick :: p2)))))
      = some v ∧
    safeParseJsonArrayFromText (p1 ++ j ++ p2) = some v := by
  constructor
  · rw [safeParseJsonArrayFromText,
      stripCodeFences_fenced (fun c hc => (hp1 c hc).2) hj (fun c hc => (hp2 c hc).2) htag]
    exact arrayFromTrim_recover hjson hhead hlast (fun c hc => (hp1 c hc).1)
      (fun c hc => (hp2 c (mem_dropTag hc)).1)
  · rw [safeParseJsonArrayFromText,
      stripCodeFences_plain (fun c hc => (hp1 c hc).2) hj (fun c hc => (hp2 c hc).2)
        (head_some_ne_nil hhead)]
    exact arrayFromTrim_recover hjson hhead hlast (fun c hc => (hp1 c hc).1)
      (fun c hc => (hp2 c hc).1)

theorem c4_extract_array_witness :
    safeParseJsonArrayFromText ( "Here: ```json\n[1]``` ok".data) = some [Json.num 1 0] ∧
    safeParseJsonArrayFromText ( "Here: [1] ok".data) = some [Json.num 1 0] :=
  c4_extract_array ( "Here: ".data) ( "json".data) ( "[1]".data) ( " ok".data)
    [Json.num 1 0] rfl rfl rfl (by decide) (by decide) (by decide) (by decide)

/-! ### The unit conversion table -/

/-- The specification's conversion table, over the lowercased unit token:
`g`/`gram`/`grams` and `ml`/`milliliter`/`milliliters` multiply by 1,
`kg` and `l` by 1000. -/
def specGrams (u : List Char) (a : ℚ) : Option ℚ :=
  if u = [ 'g'] ∨ u = [ 'g', 'r', 'a', 'm'] ∨ u = [ 'g', 'r', 'a', 'm', 's'] ∨
     u = [ 'm', 'l'] ∨ u = [ 'm', 'i', 'l', 'l', 'i', 'l', 'i', 't', 'e', 'r'] ∨
     u = [ 'm', 'i', 'l', 'l', 'i', 'l', 'i', 't', 'e', 'r', 's'] then some a
  else if u = [ 'k', 'g'] ∨ u = [ 'l'] then some (a * 1000) else none

theorem tryQuantAt_unit {s nl u rest : List Char} (h : tryQuantAt s = some (nl, u, rest)) :
    ∃ a ∈ unitAlts, u.map Char.toLower = a.map Char.toLower := by
  rw [tryQuantAt] at h
  split at h
  · split at h
    · rename_i u' rest' hf
      simp only [Option.some.injEq, Prod.mk.injEq] at h
      obtain ⟨-, h2, -⟩ := h
      obtain ⟨a, ha, hp⟩ := firstUnit_mem unitAlts _ u' rest' hf
      exact ⟨a, ha, by rw [← h2]; exact ciPre_lower a _ u' rest' hp⟩
    · exact Option.noConfusion h
  · exact Option.noConfusion h

theorem scanQuant_unit : ∀ {t pre nl u rest : List Char},
    scanQuant t = some (pre, nl, u, rest) →
    ∃ a ∈ unitAlts, u.map Char.toLower = a.map Char.toLower := by
  intro t
  induction t with
  | nil => intro pre nl u rest h; exact Option.noConfusion h
  | cons c s ih =>
    intro pre nl u rest h
    rw [scanQuant] at h
    split at h
    · rename_i nl' u' rest' hq
      simp only [Option.some.injEq, Prod.mk.injEq] at h
      obtain ⟨-, -, h3, -⟩ := h
      exact h3 ▸ tryQuantAt_unit hq
    · split at h
      · rename_i pre' nl' u' rest' hs
        simp only [Option.some.injEq, Prod.mk.injEq] at h
        obtain ⟨-, -, h3, -⟩ := h
        exact h3 ▸ ih hs
      · exact Option.noConfusion h

theorem gramsOfUnit_eq_specGrams {u : List Char}
    (hu : ∃ a ∈ unitAlts, u = a.map Char.toLower) (q : ℚ) :
    gramsOfUnit u q = specGrams u q := by
  obtain ⟨a, ha, rfl⟩ := hu
  simp only [unitAlts, List.mem_cons, List.not_mem_nil, or_false] at ha
  rcases ha with rfl | rfl | rfl | rfl | rfl | rfl | rfl | rfl | rfl | rfl <;> rfl

/-- C6: the first matched amount+unit is converted to grams exactly per the
specification's table (over the lowercased unit the parser reports), and the
four round-trip examples hold: `"banana 150g"` gives 150 g with remainder
`"banana"`, `"milk 250ml"` gives 250, `"2kg rice"` gives 2000, and
`"apple"` gives null with remainder `"apple"`. -/
theorem c6_unit_table :
    (∀ (t : List Char) (a : ℚ) (u : List Char),
      (parseAmountUnit t).amount = some a → (parseAmountUnit t).unit = some u →
      (parseAmountUnit t).grams = specGrams u a) ∧
    parseAmountUnit ( "banana 150g".data)
      = ⟨some 150, some [ 'g'], some 150, ( "banana".data)⟩ ∧
    (parseAmountUnit ( "milk 250ml".data)).grams = some 250 ∧
    (parseAmountUnit ( "2kg rice".data)).grams = some 2000 ∧
    (parseAmountUnit ( "apple".data)).grams = none ∧
    (parseAmountUnit ( "apple".data)).baseText = "apple".data := by
  refine ⟨?_, ?_, ?_, ?_, by decide, by decide⟩
  · intro t a u ha hu
    rcases hs : scanQuant t with _ | ⟨pre, nl, u', rest⟩
    · rw [parseAmountUnit_nomatch hs] at ha
      exact Option.noConfusion ha
    · rw [parseAmountUnit_some hs] at ha hu ⊢
      dsimp only at ha hu ⊢
      simp only [Option.some.injEq] at ha hu
      subst ha
      subst hu
      exact gramsOfUnit_eq_specGrams
        (by
          obtain ⟨al, hal, he⟩ := scanQuant_unit hs
          exact ⟨al, hal, he⟩) _
  · have h : parseAmountUnit ( "banana 150g".data)
        = ⟨some (((150 : ℕ) : ℚ) / (10 : ℚ) ^ (0 : ℕ)), some [ 'g'],
           some (((150 : ℕ) : ℚ) / (10 : ℚ) ^ (0 : ℕ)), ( "banana".data)⟩ := rfl
    rw [h]
    simp only [ParsedQuantity.mk.injEq]
    norm_num
  · have h : (parseAmountUnit ( "milk 250ml".data)).grams
        = some (((250 : ℕ) : ℚ) / (10 : ℚ) ^ (0 : ℕ)) := rfl
    rw [h]
    norm_num
  · have h : (parseAmountUnit ( "2kg rice".data)).grams
        = some (((2 : ℕ) : ℚ) / (10 : ℚ) ^ (0 : ℕ) * 1000) := rfl
    rw [h]
    norm_num

theorem c6_unit_table_witness :
    (parseAmountUnit ( "2kg rice".data)).grams = specGrams [ 'k', 'g'] 2 :=
  c6_unit_table.1 ( "2kg rice".data) 2 [ 'k', 'g']
    (by
      rw [show (parseAmountUnit ( "2kg rice".data)).amount
          = some (((2 : ℕ) : ℚ) / (10 : ℚ) ^ (0 : ℕ)) from rfl]
      norm_num)
    rfl

/-! ### The normalizer's field behaviour -/

/-- C1: the claim says a non-numeric raw field becomes exactly 0; in fact
`Number(item.calories || 0)` on a truthy non-numeric string gives NaN, which
is stored as-is — the field is NaN, not 0. -/
theorem c1_normalizer_counterexample :
    (normalizeItem ( "q".data)
        (Json.obj [(( "calories".data), Json.str ( "abc".data))])).calories
      = JNum.nan ∧ JNum.nan ≠ JNum.fin 0 := by
  refine ⟨rfl, ?_⟩
  intro h
  exact JNum.noConfusion h

/-- C1 (amended): for every raw candidate object, each of the 17 numeric
fields is exactly 0 when the raw field is missing or falsy (0, `""`,
`false`, `null`), and is the JavaScript numeric coercion of the raw value —
which may itself be NaN — when the raw field is truthy. -/
theorem c1_normalizer_fields (query : List Char) (item : Json) :
    fieldSpec (normalizeItem query item).calories (jget item ( "calories".data)) ∧
    fieldSpec (normalizeItem query item).protein (jget item ( "protein".data)) ∧
    fieldSpec (normalizeItem query item).carbs (jget item ( "carbs".data)) ∧
    fieldSpec (normalizeItem query item).fat (jget item ( "fat".data)) ∧
    fieldSpec (normalizeItem query item).fiber (jget item ( "fiber".data)) ∧
    fieldSpec (normalizeItem query item).sugar (jget item ( "sugar".data)) ∧
    fieldSpec (normalizeItem query item).sodium (jget item ( "sodium".data)) ∧
    fieldSpec (normalizeItem query item).iron (jget item ( "iron".data)) ∧
    fieldSpec (normalizeItem query item).zinc (jget item ( "zinc".data)) ∧
    fieldSpec (normalizeItem query item).calcium (jget item ( "calcium".data)) ∧
    fieldSpec (normalizeItem query item).vitaminB12 (jget item ( "vitaminB12".data)) ∧
    fieldSpec (normalizeItem query item).vitaminD (jget item ( "vitaminD".data)) ∧
    fieldSpec (normalizeItem query item).vitaminA (jget item ( "vitaminA".data)) ∧
    fieldSpec (normalizeItem query item).omega3 (jget item ( "omega3".data)) ∧
    fieldSpec (normalizeItem query item).vitaminC (jget item ( "vitaminC".data)) ∧
    fieldSpec (normalizeItem query item).magnesium (jget item ( "magnesium".data)) ∧
    fieldSpec (normalizeItem query item).potassium (jget item ( "potassium".data)) :=
  ⟨jnum0_fieldSpec _, jnum0_fieldSpec _, jnum0_fieldSpec _, jnum0_fieldSpec _,
   jnum0_fieldSpec _, jnum0_fieldSpec _, jnum0_fieldSpec _, jnum0_fieldSpec _,
   jnum0_fieldSpec _, jnum0_fieldSpec _, jnum0_fieldSpec _, jnum0_fieldSpec _,
   jnum0_fieldSpec _, jnum0_fieldSpec _, jnum0_fieldSpec _, jnum0_fieldSpec _,
   jnum0_fieldSpec _⟩

theorem c1_normalizer_witness :
    (normalizeItem ( "q".data)
        (Json.obj [(( "calories".data), Json.num 7 0)])).calories
      = jsToNumber (Json.num 7 0) :=
  (c1_normalizer_fields ( "q".data)
      (Json.obj [(( "calories".data), Json.num 7 0)])).1.2.2 (Json.num 7 0) rfl rfl

/-- C2: negative raw numbers are *not* coerced to 0 — `Number(-5 || 0)` is
just -5, so a negative calories field passes through to the output. -/
theorem c2_nonneg_counterexample :
    (normalizeItem ( "q".data)
        (Json.obj [(( "calories".data), Json.num (-5) 0)])).calories
      = JNum.fin (-5) ∧ ¬ (0 : ℚ) ≤ (-5 : ℚ) := by
  constructor
  · have h : (normalizeItem ( "q".data)
        (Json.obj [(( "calories".data), Json.num (-5) 0)])).calories
        = JNum.fin (((-5 : ℤ) : ℚ) * (10 : ℚ) ^ (0 : ℤ)) := rfl
    rw [h]
    norm_num
  · norm_num

/-- C2 (amended): every emitted record has all 17 numeric fields finite and
non-negative, provided each truthy raw field coerces to a non-negative
finite number (missing and falsy raw fields still give 0; negative raw
numbers would pass through, and truthy non-numeric values would give NaN). -/
theorem c2_nonneg (query : List Char) (item : Json)
    (h : ∀ (key : List Char) (v : Json), jget item key = some v → truthy v = true →
      ∃ q : ℚ, jsToNumber v = JNum.fin q ∧ 0 ≤ q) :
    (∃ q, (normalizeItem query item).calories = JNum.fin q ∧ 0 ≤ q) ∧
    (∃ q, (normalizeItem query item).protein = JNum.fin q ∧ 0 ≤ q) ∧
    (∃ q, (normalizeItem query item).carbs = JNum.fin q ∧ 0 ≤ q) ∧
    (∃ q, (normalizeItem query item).fat = JNum.fin q ∧ 0 ≤ q) ∧
    (∃ q, (normalizeItem query item).fiber = JNum.fin q ∧ 0 ≤ q) ∧
    (∃ q, (normalizeItem query item).sugar = JNum.fin q ∧ 0 ≤ q) ∧
    (∃ q, (normalizeItem query item).sodium = JNum.fin q ∧ 0 ≤ q) ∧
    (∃ q, (normalizeItem query item).iron = JNum.fin q ∧ 0 ≤ q) ∧
    (∃ q, (normalizeItem query item).zinc = JNum.fin q ∧ 0 ≤ q) ∧
    (∃ q, (normalizeItem query item).calcium = JNum.fin q ∧ 0 ≤ q) ∧
    (∃ q, (normalizeItem query item).vitaminB12 = JNum.fin q ∧ 0 ≤ q) ∧
    (∃ q, (normalizeItem query item).vitaminD = JNum.fin q ∧ 0 ≤ q) ∧
    (∃ q, (normalizeItem query item).vitaminA = JNum.fin q ∧ 0 ≤ q) ∧
    (∃ q, (normalizeItem query item).omega3 = JNum.fin q ∧ 0 ≤ q) ∧
    (∃ q, (normalizeItem query item).vitaminC = JNum.fin q ∧ 0 ≤ q) ∧
    (∃ q, (normalizeItem query item).magnesium = JNum.fin q ∧ 0 ≤ q) ∧
    (∃ q, (normalizeItem query item).potassium = JNum.fin q ∧ 0 ≤ q) :=
  ⟨jnum0_nonneg (fun v hv ht => h _ v hv ht), jnum0_nonneg (fun v hv ht => h _ v hv ht),
   jnum0_nonneg (fun v hv ht => h _ v hv ht), jnum0_nonneg (fun v hv ht => h _ v hv ht),
   jnum0_nonneg (fun v hv ht => h _ v hv ht), jnum0_nonneg (fun v hv ht => h _ v hv ht),
   jnum0_nonneg (fun v hv ht => h _ v hv ht), jnum0_nonneg (fun v hv ht => h _ v hv ht),
   jnum0_nonneg (fun v hv ht => h _ v hv ht), jnum0_nonneg (fun v hv ht => h _ v hv ht),
   jnum0_nonneg (fun v hv ht => h _ v hv ht), jnum0_nonneg (fun v hv ht => h _ v hv ht),
   jnum0_nonneg (fun v hv ht => h _ v hv ht), jnum0_nonneg (fun v hv ht => h _ v hv ht),
   jnum0_nonneg (fun v hv ht => h _ v hv ht), jnum0_nonneg (fun v hv ht => h _ v hv ht),
   jnum0_nonneg (fun v hv ht => h _ v hv ht)⟩

theorem c2_nonneg_witness :
    ∃ q, (normalizeItem ( "x".data) (Json.obj [])).calories = JNum.fin q ∧ 0 ≤ q :=
  (c2_nonneg ( "x".data) (Json.obj [])
    (fun _ _ hv _ => Option.noConfusion hv)).1

/-! ### The suggestions pipeline -/

/-- The specification's keep-predicate for a suggestion entry: drop entries
that are blank or whitespace-only (equivalently: trim to the empty string). -/
def specKeepSuggestion (s : List Char) : Bool := !(jsTrim s).isEmpty

/-- Ten non-blank suggestion strings, as one extracted suggestions object. -/
def sugTen : Json :=
  Json.obj [(( "suggestions".data),
    Json.arr [Json.str ( "s1".data), Json.str ( "s2".data), Json.str ( "s3".data),
              Json.str ( "s4".data), Json.str ( "s5".data), Json.str ( "s6".data),
              Json.str ( "s7".data), Json.str ( "s8".data), Json.str ( "s9".data),
              Json.str ( "s10".data)])]

/-- C9: whenever the extracted object's `suggestions` field is an array, the
output is the entries coerced to strings, the blank/whitespace-only ones
dropped, truncated to the first 6 in order; ten non-blank strings yield
exactly the first six. -/
theorem c9_suggestions :
    (∀ (parsed : Json) (l : List Json),
      jget parsed ( "suggestions".data) = some (Json.arr l) →
      suggestionsFromParsed parsed
        = some (((l.map jsToStr).filter specKeepSuggestion).take 6)) ∧
    suggestionsFromParsed sugTen
      = some [( "s1".data), ( "s2".data), ( "s3".data),
              ( "s4".data), ( "s5".data), ( "s6".data)] := by
  constructor
  · intro parsed l hl
    rw [suggestionsFromParsed.eq_def, hl]
    dsimp only
    have hpred : (fun s => (!s.isEmpty) && (!(jsTrim s).isEmpty)) = specKeepSuggestion := by
      funext s
      cases s with
      | nil => rfl
      | cons c t => simp [specKeepSuggestion]
    rw [hpred]
  · rfl

theorem c9_suggestions_witness :
    suggestionsFromParsed (Json.obj [(( "suggestions".data), Json.arr [Json.str ( "a".data)])])
      = some ((([Json.str ( "a".data)].map jsToStr).filter specKeepSuggestion).take 6) :=
  c9_suggestions.1 _ _ rfl

/-! ### The reference rule of the scaling block -/

theorem scaleItem_posRef {pq : ParsedQuantity} {d : ℚ} {it : NutrientRec} {v : ℚ}
    (hex : extractGramsFromPortion it.portion = some v) (hv : 0 < v) :
    scaleItem pq d it
      = { scaleNutrients it (JNum.fin (d / v)) with
          portion := customPortion pq.amount (labelUnit pq.unit) } := by
  show { scaleNutrients it (JNum.fin (match extractGramsFromPortion it.portion with
      | some w => if w ≠ 0 ∧ 0 < w then d / w else d / 100
      | none => d / 100)) with portion := customPortion pq.amount (labelUnit pq.unit) } = _
  rw [hex]
  dsimp only
  rw [if_pos ⟨hv.ne', hv⟩]

theorem scaleItem_defRef {pq : ParsedQuantity} {d : ℚ} {it : NutrientRec}
    (h : ∀ v, extractGramsFromPortion it.portion = some v → ¬ 0 < v) :
    scaleItem pq d it
      = { scaleNutrients it (JNum.fin (d / 100)) with
          portion := customPortion pq.amount (labelUnit pq.unit) } := by
  show { scaleNutrients it (JNum.fin (match extractGramsFromPortion it.portion with
      | some w => if w ≠ 0 ∧ 0 < w then d / w else d / 100
      | none => d / 100)) with portion := customPortion pq.amount (labelUnit pq.unit) } = _
  rcases hex : extractGramsFromPortion it.portion with _ | v
  · rfl
  · dsimp only
    rw [if_neg (fun hc => h v hex hc.2)]

theorem twoDec_fin (n : ℤ) {q : ℚ} (h : q * 100 = (n : ℚ)) : twoDec (JNum.fin q) := by
  intro q' hq'
  refine ⟨n, ?_⟩
  injection hq' with h'
  rw [← h']
  exact h

/-- A record whose calories need three decimal places. -/
def itemC7 : NutrientRec :=
  { name := ( "Food".data), portion := ( "1 serving (100g)".data),
    calories := JNum.fin (1234/1000), protein := JNum.fin 0, carbs := JNum.fin 0,
    fat := JNum.fin 0, fiber := JNum.fin 0, sugar := JNum.fin 0, sodium := JNum.fin 0,
    iron := JNum.fin 0, zinc := JNum.fin 0, calcium := JNum.fin 0, vitaminB12 := JNum.fin 0,
    vitaminD := JNum.fin 0, vitaminA := JNum.fin 0, omega3 := JNum.fin 0,
    vitaminC := JNum.fin 0, magnesium := JNum.fin 0, potassium := JNum.fin 0 }

/-- C7: ratio-1 scaling is *not* the identity on fields with more than two
decimal places — `toFixed(2)` turns calories 1.234 into 1.23 even though the
desired amount equals the parsed portion quantity. -/
theorem c7_ratio_one_counterexample :
    extractGramsFromPortion itemC7.portion
      = some (((100 : ℕ) : ℚ) / (10 : ℚ) ^ (0 : ℕ)) ∧
    (scaleItem ⟨none, none, none, []⟩ (((100 : ℕ) : ℚ) / (10 : ℚ) ^ (0 : ℕ)) itemC7).calories
      ≠ itemC7.calories := by
  have hex : extractGramsFromPortion itemC7.portion
      = some (((100 : ℕ) : ℚ) / (10 : ℚ) ^ (0 : ℕ)) := rfl
  refine ⟨hex, ?_⟩
  rw [scaleItem_posRef hex (by norm_num)]
  show scaleField itemC7.calories
      (JNum.fin ((((100 : ℕ) : ℚ) / (10 : ℚ) ^ (0 : ℕ)) / (((100 : ℕ) : ℚ) / (10 : ℚ) ^ (0 : ℕ))))
      ≠ itemC7.calories
  have hone : ((((100 : ℕ) : ℚ) / (10 : ℚ) ^ (0 : ℕ)) / (((100 : ℕ) : ℚ) / (10 : ℚ) ^ (0 : ℕ)))
      = (1 : ℚ) := by norm_num
  rw [hone]
  show JNum.fin (round2 ((1234 : ℚ)/1000 * 1)) ≠ JNum.fin ((1234 : ℚ)/1000)
  have hr : round2 ((1234 : ℚ)/1000 * 1) = 123/100 := by
    rw [mul_one, round2, if_pos (by norm_num)]
    rw [show ⌊(1234 : ℚ)/1000 * 100 + 1/2⌋ = (123 : ℤ) from by
      rw [Int.floor_eq_iff]
      norm_num]
    norm_num
  rw [hr]
  simp only [ne_eq, JNum.fin.injEq]
  norm_num

/-- C7 (amended): ratio-1 scaling is the identity on the 17 numeric fields
provided every field is representable with two decimal places (the rewritten
portion label is ignored). -/
theorem c7_ratio_one (pq : ParsedQuantity) (it : NutrientRec) (d : ℚ)
    (hex : extractGramsFromPortion it.portion = some d) (hd : 0 < d)
    (h2 : twoDec it.calories ∧ twoDec it.protein ∧ twoDec it.carbs ∧ twoDec it.fat ∧
          twoDec it.fiber ∧ twoDec it.sugar ∧ twoDec it.sodium ∧ twoDec it.iron ∧
          twoDec it.zinc ∧ twoDec it.calcium ∧ twoDec it.vitaminB12 ∧ twoDec it.vitaminD ∧
          twoDec it.vitaminA ∧ twoDec it.omega3 ∧ twoDec it.vitaminC ∧ twoDec it.magnesium ∧
          twoDec it.potassium) :
    { scaleItem pq d it with portion := it.portion } = it := by
  obtain ⟨t01, t02, t03, t04, t05, t06, t07, t08, t09, t10,
          t11, t12, t13, t14, t15, t16, t17⟩ := h2
  rw [scaleItem_posRef hex hd, div_self hd.ne']
  obtain ⟨nm, po, f01, f02, f03, f04, f05, f06, f07, f08, f09,
          f10, f11, f12, f13, f14, f15, f16, f17⟩ := it
  simp only [scaleNutrients]
  rw [scaleField_one t01, scaleField_one t02, scaleField_one t03, scaleField_one t04,
      scaleField_one t05, scaleField_one t06, scaleField_one t07, scaleField_one t08,
      scaleField_one t09, scaleField_one t10, scaleField_one t11, scaleField_one t12,
      scaleField_one t13, scaleField_one t14, scaleField_one t15, scaleField_one t16,
      scaleField_one t17]

/-- A record with two-decimal fields and a parenthesized 50 g portion. -/
def itemC7w : NutrientRec :=
  { name := [], portion := ( "1 serving (50g)".data),
    calories := JNum.fin (5/2), protein := JNum.fin 0, carbs := JNum.fin 0,
    fat := JNum.fin 0, fiber := JNum.fin 0, sugar := JNum.fin 0, sodium := JNum.fin 0,
    iron := JNum.fin 0, zinc := JNum.fin 0, calcium := JNum.fin 0, vitaminB12 := JNum.fin 0,
    vitaminD := JNum.fin 0, vitaminA := JNum.fin 0, omega3 := JNum.fin 0,
    vitaminC := JNum.fin 0, magnesium := JNum.fin 0, potassium := JNum.fin 0 }

theorem c7_ratio_one_witness :
    { scaleItem ⟨none, none, none, []⟩ (((50 : ℕ) : ℚ) / (10 : ℚ) ^ (0 : ℕ)) itemC7w
        with portion := itemC7w.portion } = itemC7w :=
  c7_ratio_one ⟨none, none, none, []⟩ itemC7w (((50 : ℕ) : ℚ) / (10 : ℚ) ^ (0 : ℕ)) rfl
    (by norm_num)
    ⟨twoDec_fin 250 (by norm_num), twoDec_fin 0 (by norm_num), twoDec_fin 0 (by norm_num),
     twoDec_fin 0 (by norm_num), twoDec_fin 0 (by norm_num), twoDec_fin 0 (by norm_num),
     twoDec_fin 0 (by norm_num), twoDec_fin 0 (by norm_num), twoDec_fin 0 (by norm_num),
     twoDec_fin 0 (by norm_num), twoDec_fin 0 (by norm_num), twoDec_fin 0 (by norm_num),
     twoDec_fin 0 (by norm_num), twoDec_fin 0 (by norm_num), twoDec_fin 0 (by norm_num),
     twoDec_fin 0 (by norm_num), twoDec_fin 0 (by norm_num)⟩

/-! ### Scaler linearity and the end-to-end banana scenario -/

theorem scaleResults_pos {pq : ParsedQuantity} {d : ℚ} {items : List NutrientRec}
    (hg : pq.grams = some d) (hd : d ≠ 0) (hne : items ≠ []) :
    scaleResults pq items = items.map (scaleItem pq d) := by
  rw [scaleResults.eq_def, hg]
  dsimp only
  rw [if_pos ⟨hd, hne⟩]

theorem ratToStr_onehundredfifty : ratToStr (150 : ℚ) = ( "150".data) := by
  simp only [ratToStr]
  rw [if_neg (by norm_num : ¬ (150 : ℚ) < 0)]
  rw [show |(150 : ℚ)| = 150 from abs_of_nonneg (by norm_num)]
  rw [if_pos (by simp : ((150 : ℚ)).den = 1)]
  rw [Rat.num_ofNat]
  decide

/-- The one-record model answer of end-to-end scenario 1. -/
def bananaJson : Json :=
  Json.obj [(( "name".data), Json.str ( "Banana".data)),
            (( "portion".data), Json.str ( "1 medium (118g)".data)),
            (( "calories".data), Json.num 105 0),
            (( "protein".data), Json.num 13 (-1))]

/-- C8: the scaling block multiplies every finite numeric field by the ratio
and rounds to two decimals; the ratio's reference is the parsed portion
grams when positive and 100 otherwise; the portion label is rewritten to
`custom serving (<amount><label>)`; and for the query `"banana 150g"` with a
one-record answer whose portion is `"1 medium (118g)"` and calories 105, the
output calories are 133.47 and the portion is `"custom serving (150g)"`. -/
theorem c8_linearity :
    (∀ q sc : ℚ, scaleField (JNum.fin q) (JNum.fin sc) = JNum.fin (round2 (q * sc))) ∧
    (∀ (pq : ParsedQuantity) (d : ℚ) (it : NutrientRec) (v : ℚ),
      extractGramsFromPortion it.portion = some v → 0 < v →
      scaleItem pq d it
        = { scaleNutrients it (JNum.fin (d / v)) with
            portion := customPortion pq.amount (labelUnit pq.unit) }) ∧
    (∀ (pq : ParsedQuantity) (d : ℚ) (it : NutrientRec),
      (∀ v, extractGramsFromPortion it.portion = some v → ¬ 0 < v) →
      scaleItem pq d it
        = { scaleNutrients it (JNum.fin (d / 100)) with
            portion := customPortion pq.amount (labelUnit pq.unit) }) ∧
    (foodsPipeline ( "banana 150g".data) [bananaJson]).map (fun r => (r.calories, r.portion))
      = [(JNum.fin (13347/100), ( "custom serving (150g)".data))] := by
  refine ⟨fun q sc => scaleField_fin q sc,
    fun pq d it v hex hv => scaleItem_posRef hex hv,
    fun pq d it h => scaleItem_defRef h, ?_⟩
  have hpq : parseAmountUnit ( "banana 150g".data)
      = ⟨some (((150 : ℕ) : ℚ) / (10 : ℚ) ^ (0 : ℕ)), some [ 'g'],
         some (((150 : ℕ) : ℚ) / (10 : ℚ) ^ (0 : ℕ)), ( "banana".data)⟩ := rfl
  rw [foodsPipeline, hpq]
  show (scaleResults
      ⟨some (((150 : ℕ) : ℚ) / (10 : ℚ) ^ (0 : ℕ)), some [ 'g'],
       some (((150 : ℕ) : ℚ) / (10 : ℚ) ^ (0 : ℕ)), ( "banana".data)⟩
      [normalizeItem ( "banana 150g".data) bananaJson]).map (fun r => (r.calories, r.portion))
    = [(JNum.fin (13347/100), ( "custom serving (150g)".data))]
  have hg : (⟨some (((150 : ℕ) : ℚ) / (10 : ℚ) ^ (0 : ℕ)), some [ 'g'],
       some (((150 : ℕ) : ℚ) / (10 : ℚ) ^ (0 : ℕ)), ( "banana".data)⟩ : ParsedQuantity).grams
      = some (((150 : ℕ) : ℚ) / (10 : ℚ) ^ (0 : ℕ)) := rfl
  rw [scaleResults_pos hg (by norm_num) (by simp)]
  simp only [List.map_cons, List.map_nil]
  have hex : extractGramsFromPortion (normalizeItem ( "banana 150g".data) bananaJson).portion
      = some (((118 : ℕ) : ℚ) / (10 : ℚ) ^ (0 : ℕ)) := rfl
  rw [scaleItem_posRef hex (by norm_num)]
  simp only [List.cons.injEq, Prod.mk.injEq, and_true]
  constructor
  · show scaleField (normalizeItem ( "banana 150g".data) bananaJson).calories
        (JNum.fin ((((150 : ℕ) : ℚ) / (10 : ℚ) ^ (0 : ℕ)) / (((118 : ℕ) : ℚ) / (10 : ℚ) ^ (0 : ℕ))))
      = JNum.fin (13347/100)
    have hcal : (normalizeItem ( "banana 150g".data) bananaJson).calories
        = JNum.fin (((105 : ℤ) : ℚ) * (10 : ℚ) ^ ((0 : ℤ))) := rfl
    rw [hcal, scaleField_fin]
    have harg : ((105 : ℤ) : ℚ) * (10 : ℚ) ^ ((0 : ℤ))
        * ((((150 : ℕ) : ℚ) / (10 : ℚ) ^ (0 : ℕ)) / (((118 : ℕ) : ℚ) / (10 : ℚ) ^ (0 : ℕ)))
        = 7875/59 := by
      push_cast
      norm_num
    rw [harg]
    have hr : round2 ((7875 : ℚ)/59) = 13347/100 := by
      rw [round2, if_pos (by norm_num)]
      rw [show ⌊(7875 : ℚ)/59 * 100 + 1/2⌋ = (13347 : ℤ) from by
        rw [Int.floor_eq_iff]
        norm_num]
      norm_num
    rw [hr]
  · show customPortion (some (((150 : ℕ) : ℚ) / (10 : ℚ) ^ (0 : ℕ))) (labelUnit (some [ 'g']))
      = ( "custom serving (150g)".data)
    rw [show labelUnit (some [ 'g']) = [ 'g'] from by decide]
    rw [show (((150 : ℕ) : ℚ) / (10 : ℚ) ^ (0 : ℕ)) = (150 : ℚ) from by norm_num]
    simp only [customPortion]
    rw [ratToStr_onehundredfifty]
    decide

/-- A record with a parenthesized 20 g portion, to instantiate the reference
rule at a concrete input. -/
def itemC8w : NutrientRec :=
  { name := [], portion := ( "1 cup (20g)".data),
    calories := JNum.fin 0, protein := JNum.fin 0, carbs := JNum.fin 0,
    fat := JNum.fin 0, fiber := JNum.fin 0, sugar := JNum.fin 0, sodium := JNum.fin 0,
    iron := JNum.fin 0, zinc := JNum.fin 0, calcium := JNum.fin 0, vitaminB12 := JNum.fin 0,
    vitaminD := JNum.fin 0, vitaminA := JNum.fin 0, omega3 := JNum.fin 0,
    vitaminC := JNum.fin 0, magnesium := JNum.fin 0, potassium := JNum.fin 0 }

theorem c8_linearity_witness :
    scaleItem ⟨none, some [ 'g'], some 2, []⟩ 3 itemC8w
      = { scaleNutrients itemC8w (JNum.fin (3 / (((20 : ℕ) : ℚ) / (10 : ℚ) ^ (0 : ℕ)))) with
          portion := customPortion (some 2) (labelUnit (some [ 'g'])) } :=
  c8_linearity.2.1 ⟨none, some [ 'g'], some 2, []⟩ 3 itemC8w
    (((20 : ℕ) : ℚ) / (10 : ℚ) ^ (0 : ℕ)) rfl (by norm_num)

end CalorieCurve
